import Mathlib

/-!
Verification of the slash-command validator and auto-fixer
(`src/validate_commands.py`, `src/fix_commands.py`).

The development shallowly embeds the two tools over `List Char` text.
Metadata values are the closed variant set the documents use
(string / boolean / sequence of strings); bodies are raw strings.
The third-party frontmatter parser/serializer is an external collaborator
that is not part of the repository; it is modelled from the specification's
contract in section 4.1 and section 6 (marker-delimited block, mapping
grammar, parse failure when an opening marker has no closing marker,
lossless round trip).  Everything else is translated from the Python
source, function by function.
-/

/-- Metadata values as decoded from a frontmatter block: string, boolean,
or sequence of strings (spec section 3 and section 9). -/
inductive DValue where
  | str (s : String)
  | bool (b : Bool)
  | list (l : List String)
  deriving DecidableEq, Repr

/-- A decoded metadata block: an ordered association of field names
to values, first match wins on lookup (Python dict keys are unique). -/
abbrev Metadata := List (String × DValue)

/-- Dictionary lookup (`metadata.get(k)` / `k in metadata`). -/
def lookupMeta : Metadata → String → Option DValue
  | [], _ => none
  | (k', v) :: m, k => if k' = k then some v else lookupMeta m k

/-- Dictionary assignment `d[k] = v`: replace in place if the key exists,
append otherwise (Python dict order semantics). -/
def setKey : Metadata → String → DValue → Metadata
  | [], k, v => [(k, v)]
  | (k', v') :: m, k, v =>
    if k' = k then (k, v) :: m else (k', v') :: setKey m k v

/-- Python word characters for the `\w` class, ASCII fragment. -/
def isWordCh (c : Char) : Bool := c.isAlpha || c.isDigit || c = '_'

/-- Python `str.strip` whitespace set. -/
def isPySpace (c : Char) : Bool :=
  c = ' ' || c = '\t' || c = '\n' || c = '\r' || c = '\x0b' || c = '\x0c'

/-- `leadsWith pat cs`: `cs` starts with the pattern `pat`. -/
def leadsWith : List Char → List Char → Bool
  | [], _ => true
  | _ :: _, [] => false
  | p :: ps, c :: cs => p = c && leadsWith ps cs

/-- `seqIn pat cs`: the pattern occurs contiguously somewhere in `cs`
(Python `pat in s` substring test). -/
def seqIn (pat : List Char) : List Char → Bool
  | [] => leadsWith pat []
  | c :: cs => leadsWith pat (c :: cs) || seqIn pat cs

theorem leadsWith_iff_append (pat cs : List Char) :
    leadsWith pat cs = true ↔ ∃ t, cs = pat ++ t := by
  induction pat generalizing cs with
  | nil => simp [leadsWith]
  | cons p ps ih =>
    cases cs with
    | nil => simp [leadsWith]
    | cons c cs =>
      simp only [leadsWith, Bool.and_eq_true, decide_eq_true_eq, ih]
      constructor
      · rintro ⟨rfl, t, rfl⟩
        exact ⟨t, rfl⟩
      · rintro ⟨t, h⟩
        rw [List.cons_append] at h
        injection h with h1 h2
        exact ⟨h1.symm, t, h2⟩

theorem seqIn_iff_append (pat cs : List Char) :
    seqIn pat cs = true ↔ ∃ u v, cs = u ++ pat ++ v := by
  induction cs with
  | nil =>
    rw [seqIn, leadsWith_iff_append]
    constructor
    · rintro ⟨t, h⟩
      exact ⟨[], t, by simpa using h⟩
    · rintro ⟨u, v, h⟩
      have h2 : u ++ (pat ++ v) = [] := by rw [← List.append_assoc]; exact h.symm
      rcases List.append_eq_nil.mp h2 with ⟨hu, hpv⟩
      rcases List.append_eq_nil.mp hpv with ⟨hp, hv⟩
      exact ⟨[], by simp [hp]⟩
  | cons c cs ih =>
    rw [seqIn, Bool.or_eq_true, leadsWith_iff_append, ih]
    constructor
    · rintro (⟨t, h⟩ | ⟨u, v, h⟩)
      · exact ⟨[], t, by simpa using h⟩
      · exact ⟨c :: u, v, by simp [h]⟩
    · rintro ⟨u, v, h⟩
      cases u with
      | nil =>
        left
        exact ⟨v, by simpa using h⟩
      | cons a u =>
        right
        rw [List.cons_append, List.cons_append] at h
        injection h with h1 h2
        exact ⟨u, v, h2⟩

theorem seqIn_nil_pat (cs : List Char) : seqIn [] cs = true := by
  cases cs <;> simp [seqIn, leadsWith]

theorem leadsWith_append_of (pat s t : List Char) (h : leadsWith pat s = true) :
    leadsWith pat (s ++ t) = true := by
  rcases (leadsWith_iff_append pat s).mp h with ⟨r, rfl⟩
  exact (leadsWith_iff_append ..).mpr ⟨r ++ t, by simp⟩

theorem seqIn_append_left {pat x : List Char} (z : List Char)
    (h : seqIn pat x = true) : seqIn pat (x ++ z) = true := by
  rcases (seqIn_iff_append pat x).mp h with ⟨u, v, rfl⟩
  exact (seqIn_iff_append ..).mpr ⟨u, v ++ z, by simp⟩

theorem seqIn_append_right {pat y : List Char} (w : List Char)
    (h : seqIn pat y = true) : seqIn pat (w ++ y) = true := by
  rcases (seqIn_iff_append pat y).mp h with ⟨u, v, rfl⟩
  exact (seqIn_iff_append ..).mpr ⟨w ++ u, v, by simp⟩

/-- A pattern that avoids every character of a nonempty middle segment
cannot straddle it: an occurrence lies wholly on one side.  Stated for
the `leadsWith` form first. -/
theorem leadsWith_blocked (pat : List Char) :
    ∀ (x mid y : List Char), mid ≠ [] → (∀ c ∈ mid, c ∉ pat) →
    leadsWith pat (x ++ mid ++ y) = true → leadsWith pat x = true := by
  induction pat with
  | nil => intro x mid y _ _ _; rfl
  | cons p ps ih =>
    intro x mid y hmid hdisj h
    cases x with
    | nil =>
      cases mid with
      | nil => exact absurd rfl hmid
      | cons m mid' =>
        exfalso
        simp only [List.nil_append, List.cons_append, leadsWith,
          Bool.and_eq_true, decide_eq_true_eq] at h
        exact hdisj m (by simp) (by simp [h.1])
    | cons a x' =>
      simp only [List.cons_append, leadsWith, Bool.and_eq_true] at h ⊢
      refine ⟨h.1, ?_⟩
      exact ih x' mid y hmid (fun c hc hmem => hdisj c hc (by simp [hmem])) h.2

theorem seqIn_of_leadsWith {pat s : List Char} (h : leadsWith pat s = true) :
    seqIn pat s = true := by
  cases s with
  | nil => simpa [seqIn] using h
  | cons c cs => simp [seqIn, h]

/-- Occurrences of a pattern in `mid ++ y` where `mid` avoids the pattern's
characters must lie in `y`. -/
theorem seqIn_skip_mid (pat : List Char) (hpat : pat ≠ []) :
    ∀ (mid y : List Char), (∀ c ∈ mid, c ∉ pat) →
    seqIn pat (mid ++ y) = true → seqIn pat y = true := by
  intro mid
  induction mid with
  | nil => intro y _ h; simpa using h
  | cons m mid' ih =>
    intro y hdisj h
    simp only [List.cons_append, seqIn, Bool.or_eq_true] at h
    rcases h with h | h
    · exfalso
      cases pat with
      | nil => exact hpat rfl
      | cons p ps =>
        simp only [leadsWith, Bool.and_eq_true, decide_eq_true_eq] at h
        exact hdisj m (by simp) (by simp [h.1])
    · exact ih y (fun c hc => hdisj c (by simp [hc])) h

/-- Forward half of the splitting law: an occurrence in `x ++ mid ++ y`
with `mid` disjoint from the pattern lies in `x` or in `y`. -/
theorem seqIn_split (pat : List Char) (hpat : pat ≠ [])
    (x : List Char) (mid y : List Char) (hmid : mid ≠ [])
    (hdisj : ∀ c ∈ mid, c ∉ pat)
    (h : seqIn pat (x ++ mid ++ y) = true) :
    seqIn pat x = true ∨ seqIn pat y = true := by
  induction x with
  | nil =>
    right
    exact seqIn_skip_mid pat hpat mid y hdisj (by simpa using h)
  | cons a x' ih =>
    simp only [List.cons_append, seqIn, Bool.or_eq_true] at h
    rcases h with h | h
    · left
      have hb := leadsWith_blocked pat (a :: x') mid y hmid hdisj (by simpa using h)
      exact seqIn_of_leadsWith hb
    · rcases ih h with hx | hy
      · exact Or.inl (by simp [seqIn, hx])
      · exact Or.inr hy

/-- The central splitting law: a pattern disjoint from a nonempty middle
segment occurs in `x ++ mid ++ y` exactly when it occurs in `x` or in `y`. -/
theorem seqIn_append_mid (pat : List Char) (hpat : pat ≠ [])
    (x mid y : List Char) (hmid : mid ≠ []) (hdisj : ∀ c ∈ mid, c ∉ pat) :
    seqIn pat (x ++ mid ++ y) = (seqIn pat x || seqIn pat y) := by
  rw [Bool.eq_iff_iff, Bool.or_eq_true]
  constructor
  · exact seqIn_split pat hpat x mid y hmid hdisj
  · rintro (hx | hy)
    · have h2 := seqIn_append_left (z := mid ++ y) hx
      rwa [← List.append_assoc] at h2
    · exact seqIn_append_right (x ++ mid) hy

/-- Push a character onto the head chunk of a chunk list. -/
def consHead (c : Char) : List (List Char) → List (List Char)
  | [] => [[c]]
  | l :: ls => (c :: l) :: ls

/-- Split text into its lines at every newline (lossless: `n` newlines
give `n + 1` chunks, none containing a newline). -/
def splitLinesC : List Char → List (List Char)
  | [] => [[]]
  | c :: cs => if c = '\n' then [] :: splitLinesC cs else consHead c (splitLinesC cs)

/-- Re-join lines with single newlines (inverse of `splitLinesC`). -/
def joinLinesC : List (List Char) → List Char
  | [] => []
  | [l] => l
  | l :: l' :: ls => l ++ '\n' :: joinLinesC (l' :: ls)

theorem splitLinesC_ne_nil (cs : List Char) : splitLinesC cs ≠ [] := by
  induction cs with
  | nil => simp [splitLinesC]
  | cons c cs ih =>
    by_cases h : c = '\n'
    · simp [splitLinesC, h]
    · simp only [splitLinesC, if_neg h]
      cases hs : splitLinesC cs with
      | nil => exact absurd hs ih
      | cons l ls => simp [consHead]

theorem joinLinesC_splitLinesC (cs : List Char) :
    joinLinesC (splitLinesC cs) = cs := by
  induction cs with
  | nil => rfl
  | cons c cs ih =>
    by_cases h : c = '\n'
    · subst h
      simp only [splitLinesC, if_pos rfl]
      cases hs : splitLinesC cs with
      | nil => exact absurd hs (splitLinesC_ne_nil cs)
      | cons l ls =>
        rw [hs] at ih
        simp [joinLinesC, ih]
    · simp only [splitLinesC, if_neg h]
      cases hs : splitLinesC cs with
      | nil => exact absurd hs (splitLinesC_ne_nil cs)
      | cons l ls =>
        rw [hs] at ih
        cases ls with
        | nil => simp_all [joinLinesC, consHead]
        | cons l' ls' => simp_all [joinLinesC, consHead]

theorem no_newline_mem_splitLinesC (cs : List Char) :
    ∀ l ∈ splitLinesC cs, '\n' ∉ l := by
  induction cs with
  | nil => simp [splitLinesC]
  | cons c cs ih =>
    by_cases h : c = '\n'
    · simp only [splitLinesC, if_pos h]
      intro l hl
      rcases List.mem_cons.mp hl with rfl | hl
      · simp
      · exact ih l hl
    · simp only [splitLinesC, if_neg h]
      cases hs : splitLinesC cs with
      | nil => exact absurd hs (splitLinesC_ne_nil cs)
      | cons l0 ls =>
        intro l hl
        rcases List.mem_cons.mp (by simpa [consHead] using hl) with rfl | hl
        · intro hmem
          rcases List.mem_cons.mp hmem with rfl | hmem
          · exact h rfl
          · exact ih l0 (hs ▸ List.mem_cons_self ..) hmem
        · exact ih l (hs ▸ List.mem_cons.mpr (Or.inr hl))

theorem splitLinesC_of_no_newline {l : List Char} (h : '\n' ∉ l) :
    splitLinesC l = [l] := by
  induction l with
  | nil => rfl
  | cons c cs ih =>
    have hc : ¬ c = '\n' := fun hc => h (by simp [hc])
    rw [splitLinesC, if_neg hc, ih (fun hm => h (by simp [hm]))]
    rfl

theorem splitLinesC_append_newline {l : List Char} (t : List Char)
    (h : '\n' ∉ l) : splitLinesC (l ++ '\n' :: t) = l :: splitLinesC t := by
  induction l with
  | nil => simp [splitLinesC]
  | cons c cs ih =>
    have hc : ¬ c = '\n' := fun hc => h (by simp [hc])
    rw [List.cons_append, splitLinesC, if_neg hc, ih (fun hm => h (by simp [hm]))]
    rfl

theorem splitLinesC_joinLinesC (L : List (List Char)) (hne : L ≠ [])
    (h : ∀ l ∈ L, '\n' ∉ l) : splitLinesC (joinLinesC L) = L := by
  induction L with
  | nil => exact absurd rfl hne
  | cons l L ih =>
    cases L with
    | nil => exact splitLinesC_of_no_newline (h l (by simp))
    | cons l' ls =>
      rw [joinLinesC, splitLinesC_append_newline _ (h l (by simp))]
      rw [ih (by simp) (fun x hx => h x (List.mem_cons.mpr (Or.inr hx)))]

/-- Join chunks with a separator (Python `sep.join`). -/
def joinSepC (sep : List Char) : List (List Char) → List Char
  | [] => []
  | [e] => e
  | e :: e' :: es => e ++ sep ++ joinSepC sep (e' :: es)

/-- The two-character separator `", "`. -/
def csSep : List Char := [',', ' ']

/-- Whether `", "` occurs in the chunk (used to state when `splitCS`
inverts `joinSepC csSep`). -/
def hasCS : List Char → Bool
  | [] => false
  | [_] => false
  | c :: c' :: cs => if c = ',' ∧ c' = ' ' then true else hasCS (c' :: cs)

/-- Split on the separator `", "` (Python `s.split(', ')`, as YAML flow
sequences are decoded in the modelled mapping grammar). -/
def splitCS : List Char → List (List Char)
  | [] => [[]]
  | [c] => [[c]]
  | c :: c' :: cs =>
    if c = ',' ∧ c' = ' ' then [] :: splitCS cs
    else consHead c (splitCS (c' :: cs))

theorem splitCS_ne_nil (cs : List Char) : splitCS cs ≠ [] := by
  induction cs with
  | nil => simp [splitCS]
  | cons c cs ih =>
    cases cs with
    | nil => simp [splitCS]
    | cons c' cs' =>
      rw [splitCS]
      split
      · simp
      · cases hs : splitCS (c' :: cs') with
        | nil => exact absurd hs ih
        | cons l ls => simp [consHead]

theorem splitCS_head_nil_or_cons (x : Char) (xs : List Char) :
    ∃ l ls, splitCS (x :: xs) = l :: ls ∧ (l = [] ∨ ∃ t, l = x :: t) := by
  cases xs with
  | nil => exact ⟨[x], [], rfl, Or.inr ⟨[], rfl⟩⟩
  | cons c' cs =>
    rw [splitCS]
    split
    · exact ⟨[], splitCS cs, rfl, Or.inl rfl⟩
    · rcases hs : splitCS (c' :: cs) with _ | ⟨l, ls⟩
      · exact absurd hs (splitCS_ne_nil _)
      · exact ⟨x :: l, ls, by simp [consHead], Or.inr ⟨l, rfl⟩⟩

theorem hasCS_mem_splitCS : ∀ (cs : List Char), ∀ e ∈ splitCS cs, hasCS e = false
  | [] => by
    intro e he
    simp only [splitCS, List.mem_singleton] at he
    subst he
    rfl
  | [c] => by
    intro e he
    simp only [splitCS, List.mem_singleton] at he
    subst he
    rfl
  | c :: c' :: cs => by
    intro e he
    rw [splitCS] at he
    split at he
    · rcases List.mem_cons.mp he with rfl | he
      · rfl
      · exact hasCS_mem_splitCS cs e he
    · rename_i hcond
      obtain ⟨l, ls, hs, hshape⟩ := splitCS_head_nil_or_cons c' cs
      rw [hs] at he
      simp only [consHead] at he
      rcases List.mem_cons.mp he with rfl | he
      · rcases hshape with rfl | ⟨t, rfl⟩
        · rfl
        · have hrec := hasCS_mem_splitCS (c' :: cs) (c' :: t) (hs ▸ List.mem_cons_self ..)
          rw [hasCS, if_neg hcond]
          exact hrec
      · exact hasCS_mem_splitCS (c' :: cs) e (hs ▸ List.mem_cons.mpr (Or.inr he))

theorem chars_mem_splitCS : ∀ (cs : List Char), ∀ e ∈ splitCS cs, ∀ ch ∈ e, ch ∈ cs
  | [] => by
    intro e he
    simp only [splitCS, List.mem_singleton] at he
    subst he
    simp
  | [c] => by
    intro e he
    simp only [splitCS, List.mem_singleton] at he
    subst he
    simp
  | c :: c' :: cs => by
    intro e he ch hch
    rw [splitCS] at he
    split at he
    · rcases List.mem_cons.mp he with rfl | he
      · simp at hch
      · have := chars_mem_splitCS cs e he ch hch
        simp [this]
    · obtain ⟨l, ls, hs, hshape⟩ := splitCS_head_nil_or_cons c' cs
      rw [hs] at he
      simp only [consHead] at he
      rcases List.mem_cons.mp he with rfl | he
      · rcases List.mem_cons.mp hch with rfl | hch
        · simp
        · have := chars_mem_splitCS (c' :: cs) l (hs ▸ List.mem_cons_self ..) ch hch
          simp [this]
      · have := chars_mem_splitCS (c' :: cs) e (hs ▸ List.mem_cons.mpr (Or.inr he)) ch hch
        simp [this]

theorem splitCS_of_no_sep : ∀ {l : List Char}, hasCS l = false → splitCS l = [l]
  | [], _ => rfl
  | [_], _ => rfl
  | c :: c' :: cs, h => by
    rw [hasCS] at h
    rw [splitCS]
    split
    · rename_i hcond
      rw [if_pos hcond] at h
      exact absurd h (by simp)
    · rename_i hcond
      rw [if_neg hcond] at h
      rw [splitCS_of_no_sep h]
      rfl

theorem splitCS_append_sep : ∀ {a : List Char} (b : List Char),
    hasCS a = false → splitCS (a ++ ',' :: ' ' :: b) = a :: splitCS b
  | [], b, _ => by
    rw [List.nil_append, splitCS, if_pos ⟨rfl, rfl⟩]
  | [c], b, _ => by
    have hc : ¬ (c = ',' ∧ (',' : Char) = ' ') := by simp
    show splitCS (c :: ',' :: ' ' :: b) = [c] :: splitCS b
    rw [show splitCS (c :: ',' :: ' ' :: b)
        = if c = ',' ∧ (',' : Char) = ' ' then [] :: splitCS (' ' :: b)
          else consHead c (splitCS (',' :: ' ' :: b)) from rfl]
    rw [if_neg hc]
    rw [show splitCS (',' :: ' ' :: b)
        = if (',' : Char) = ',' ∧ (' ' : Char) = ' ' then [] :: splitCS b
          else consHead ',' (splitCS (' ' :: b)) from rfl]
    rw [if_pos ⟨rfl, rfl⟩]
    rfl
  | c :: c' :: cs, b, h => by
    rw [hasCS] at h
    split at h
    · exact absurd h (by simp)
    · rename_i hcond
      show splitCS (c :: c' :: (cs ++ ',' :: ' ' :: b)) = (c :: c' :: cs) :: splitCS b
      rw [show splitCS (c :: c' :: (cs ++ ',' :: ' ' :: b))
          = if c = ',' ∧ c' = ' ' then [] :: splitCS (cs ++ ',' :: ' ' :: b)
            else consHead c (splitCS (c' :: (cs ++ ',' :: ' ' :: b))) from rfl]
      rw [if_neg hcond]
      rw [show c' :: (cs ++ ',' :: ' ' :: b) = (c' :: cs) ++ ',' :: ' ' :: b from rfl]
      rw [splitCS_append_sep b h]
      rfl

theorem splitCS_joinSep : ∀ (L : List (List Char)), L ≠ [] →
    (∀ e ∈ L, hasCS e = false) → splitCS (joinSepC csSep L) = L
  | [], hne, _ => absurd rfl hne
  | [e], _, h => by
    rw [show joinSepC csSep [e] = e from rfl]
    exact splitCS_of_no_sep (h e (by simp))
  | e :: e' :: es, _, h => by
    rw [show joinSepC csSep (e :: e' :: es)
        = e ++ csSep ++ joinSepC csSep (e' :: es) from rfl]
    have : e ++ csSep ++ joinSepC csSep (e' :: es)
        = e ++ ',' :: ' ' :: joinSepC csSep (e' :: es) := by
      simp [csSep]
    rw [this, splitCS_append_sep _ (h e (by simp)),
      splitCS_joinSep (e' :: es) (by simp) (fun x hx => h x (List.mem_cons.mpr (Or.inr hx)))]

theorem mem_joinSepC_of_mem (sep : List Char) :
    ∀ (L : List (List Char)) (e : List Char), e ∈ L → ∀ c ∈ e, c ∈ joinSepC sep L
  | [], _, he => by simp at he
  | [x], e, he => by
    simp only [List.mem_singleton] at he
    subst he
    intro c hc
    simpa [joinSepC] using hc
  | x :: x' :: xs, e, he => by
    intro c hc
    rw [joinSepC]
    rcases List.mem_cons.mp he with rfl | he
    · simp [hc]
    · have := mem_joinSepC_of_mem sep (x' :: xs) e he c hc
      simp [this]

theorem chars_joinSepC (sep : List Char) :
    ∀ (L : List (List Char)), ∀ c ∈ joinSepC sep L, c ∈ sep ∨ ∃ e ∈ L, c ∈ e
  | [] => by simp [joinSepC]
  | [x] => by
    intro c hc
    rw [joinSepC] at hc
    exact Or.inr ⟨x, by simp, hc⟩
  | x :: x' :: xs => by
    intro c hc
    rw [joinSepC] at hc
    rcases List.mem_append.mp hc with hc | hc
    · rcases List.mem_append.mp hc with hc | hc
      · exact Or.inr ⟨x, by simp, hc⟩
      · exact Or.inl hc
    · rcases chars_joinSepC sep (x' :: xs) c hc with hc | ⟨e, he, hce⟩
      · exact Or.inl hc
      · exact Or.inr ⟨e, List.mem_cons.mpr (Or.inr he), hce⟩

/-- Decimal digit character for a digit value (last case absorbs 9). -/
def digitCh : Nat → Char
  | 0 => '0'
  | 1 => '1'
  | 2 => '2'
  | 3 => '3'
  | 4 => '4'
  | 5 => '5'
  | 6 => '6'
  | 7 => '7'
  | 8 => '8'
  | _ => '9'

/-- Python `str(n)` for a natural number, as characters: successive
division by ten, least significant digit accumulated last.  The fuel
`n + 1` bounds the digit count, so the zero-fuel case is never taken. -/
def natToCharsAux : Nat → Nat → List Char → List Char
  | 0, _, acc => acc
  | fuel + 1, n, acc =>
    if n < 10 then digitCh n :: acc
    else natToCharsAux fuel (n / 10) (digitCh (n % 10) :: acc)

def natToChars (n : Nat) : List Char := natToCharsAux (n + 1) n []

def natToString (n : Nat) : String := ⟨natToChars n⟩

theorem digitCh_mem (d : Nat) :
    digitCh d ∈ ['0', '1', '2', '3', '4', '5', '6', '7', '8', '9'] := by
  match d with
  | 0 => decide
  | 1 => decide
  | 2 => decide
  | 3 => decide
  | 4 => decide
  | 5 => decide
  | 6 => decide
  | 7 => decide
  | 8 => decide
  | n + 9 =>
    show '9' ∈ _
    decide

theorem natToCharsAux_digits : ∀ (fuel n : Nat) (acc : List Char),
    (∀ c ∈ acc, c ∈ ['0', '1', '2', '3', '4', '5', '6', '7', '8', '9']) →
    ∀ c ∈ natToCharsAux fuel n acc, c ∈ ['0', '1', '2', '3', '4', '5', '6', '7', '8', '9']
  | 0, _, acc, hacc => hacc
  | fuel + 1, n, acc, hacc => by
    rw [natToCharsAux]
    split
    · intro c hc
      rcases List.mem_cons.mp hc with rfl | hc
      · exact digitCh_mem n
      · exact hacc c hc
    · refine natToCharsAux_digits fuel (n / 10) _ ?_
      intro c hc
      rcases List.mem_cons.mp hc with rfl | hc
      · exact digitCh_mem (n % 10)
      · exact hacc c hc

theorem natToChars_digits (n : Nat) :
    ∀ c ∈ natToChars n, c ∈ ['0', '1', '2', '3', '4', '5', '6', '7', '8', '9'] :=
  natToCharsAux_digits (n + 1) n [] (by simp)

/-- Python `int(s)` on a run of decimal digits. -/
def natOfDigits (run : List Char) : Nat :=
  run.foldl (fun a c => 10 * a + (c.toNat - 48)) 0

/-- Python `str(True)` / `str(False)`. -/
def pyBoolStr (b : Bool) : String := if b then "True" else "False"

/-- Python `str.strip()` on characters. -/
def pyStripC (cs : List Char) : List Char :=
  ((cs.dropWhile isPySpace).reverse.dropWhile isPySpace).reverse

/-- Python `str.strip()`. -/
def pyStrip (s : String) : String := ⟨pyStripC s.data⟩

theorem pyStripC_eq_nil_iff (cs : List Char) :
    pyStripC cs = [] ↔ ∀ c ∈ cs, isPySpace c = true := by
  unfold pyStripC
  rw [List.reverse_eq_nil_iff, List.dropWhile_eq_nil_iff]
  constructor
  · intro h c hc
    conv at hc => rw [← List.takeWhile_append_dropWhile isPySpace cs]
    rcases List.mem_append.mp hc with hc | hc
    · exact List.mem_takeWhile_imp hc
    · exact h c (by simpa using hc)
  · intro h c hc
    have hc2 : c ∈ cs.dropWhile isPySpace := by simpa using hc
    have : cs.dropWhile isPySpace = [] :=
      List.dropWhile_eq_nil_iff.mpr (fun x hx => h x hx)
    rw [this] at hc2
    simp at hc2

theorem dropWhile_length_le (p : Char → Bool) (l : List Char) :
    (l.dropWhile p).length ≤ l.length := by
  induction l with
  | nil => simp
  | cons c cs ih =>
    rw [List.dropWhile_cons]
    split
    · exact Nat.le_succ_of_le ih
    · simp

/-- `re.findall(r'\$(\d+)', body)`: every maximal digit run directly
following a dollar sign, in order (`src/fix_commands.py` line 155,
`src/validate_commands.py` line 254). -/
def posArgRunsAux : Nat → List Char → List (List Char)
  | 0, _ => []
  | _ + 1, [] => []
  | fuel + 1, c :: cs =>
    if c = '$' then
      let run := cs.takeWhile Char.isDigit
      if run = [] then posArgRunsAux fuel cs
      else run :: posArgRunsAux fuel (cs.dropWhile Char.isDigit)
    else posArgRunsAux fuel cs

def posArgRuns (cs : List Char) : List (List Char) := posArgRunsAux cs.length cs

/-- `re.findall(r'!\`([^`]+)\`', body)`: embedded shell-execution
markers (`src/fix_commands.py` line 172, `src/validate_commands.py`
line 226).  A match needs `!`, a backtick, one or more non-backtick
characters and a closing backtick; failed match attempts advance one
position, successful ones resume after the closing backtick. -/
def bashCmdsAux : Nat → List Char → List (List Char)
  | 0, _ => []
  | _ + 1, [] => []
  | fuel + 1, c :: cs =>
    if c = '!' ∧ cs.head? = some '`' then
      let cmd := cs.tail.takeWhile (· ≠ '`')
      if cmd = [] then bashCmdsAux fuel cs
      else if (cs.tail.dropWhile (· ≠ '`')).head? = some '`' then
        cmd :: bashCmdsAux fuel (cs.tail.dropWhile (· ≠ '`')).tail
      else bashCmdsAux fuel cs
    else bashCmdsAux fuel cs

def bashCmds (cs : List Char) : List (List Char) := bashCmdsAux cs.length cs

/-- Characters permitted in a file-reference token (`[\w\-./]`). -/
def isRefCh (c : Char) : Bool := isWordCh c || c = '-' || c = '.' || c = '/'

/-- `re.findall(r'@([\w\-./]+)', body)`: file-reference markers
(`src/validate_commands.py` line 239). -/
def fileRefsAux : Nat → List Char → List (List Char)
  | 0, _ => []
  | _ + 1, [] => []
  | fuel + 1, c :: cs =>
    if c = '@' then
      let run := cs.takeWhile isRefCh
      if run = [] then fileRefsAux fuel cs
      else run :: fileRefsAux fuel (cs.dropWhile isRefCh)
    else fileRefsAux fuel cs

def fileRefs (cs : List Char) : List (List Char) := fileRefsAux cs.length cs

/-- Split a line at its first colon (the `(\w[\w-]*?):` part of the
mapping grammar finds the earliest colon). -/
def breakColon : List Char → Option (List Char × List Char)
  | [] => none
  | c :: cs =>
    if c = ':' then some ([], cs)
    else (breakColon cs).map (fun p => (c :: p.1, p.2))

/-- A valid mapping key: `\w[\w-]*` (word character, then word characters
or hyphens). -/
def validKeyChars : List Char → Bool
  | [] => true
  | c :: cs => (isWordCh c || c = '-') && validKeyChars cs

def validKey : List Char → Bool
  | [] => false
  | c :: cs => isWordCh c && validKeyChars cs

/-- Modelled from the spec: the collaborator's restricted mapping-value
grammar (spec section 6: string, boolean and sequence-of-string scalars).
A double-quoted value is a string; `true` / `false` are booleans; a fully
bracketed value with no nested bracket is a flow sequence split on `", "`
(empty brackets decode to the empty sequence);
a value with a stray bracket fails to decode (the documented failure mode
repaired by `_fix_frontmatter_syntax`); anything else is a plain string. -/
def decodeValue : List Char → Except String DValue
  | [] => .error "empty value"
  | c :: rest =>
    if c = '"' then
      if rest.getLast? = some '"' then .ok (.str ⟨rest.dropLast⟩)
      else .error "unterminated quoted value"
    else if c = '[' then
      if rest.getLast? = some ']' ∧
          ¬ ('[' ∈ rest.dropLast ∨ ']' ∈ rest.dropLast) then
        if rest.dropLast = [] then .ok (.list [])
        else .ok (.list ((splitCS rest.dropLast).map (fun e => (⟨e⟩ : String))))
      else .error "unquoted bracket in value"
    else if c :: rest = "true".data then .ok (.bool true)
    else if c :: rest = "false".data then .ok (.bool false)
    else .ok (.str ⟨c :: rest⟩)

/-- Modelled from the spec: decode one `key: value` line of the metadata
block. -/
def parseFMLine (l : List Char) : Except String (String × DValue) :=
  match breakColon l with
  | none => .error "not a key-value mapping line"
  | some (k, rest) =>
    if validKey k then
      match decodeValue (rest.dropWhile (· = ' ')) with
      | .error e => .error e
      | .ok v => .ok (⟨k⟩, v)
    else .error "invalid mapping key"

/-- Modelled from the spec: decode the metadata block's lines into an
ordered mapping (later duplicate keys overwrite, as in a dict). -/
def decodeFMAux (acc : Metadata) : List (List Char) → Except String Metadata
  | [] => .ok acc
  | l :: ls =>
    match parseFMLine l with
    | .error e => .error e
    | .ok (k, v) => decodeFMAux (setKey acc k v) ls

/-- The frontmatter marker line `---`. -/
def markerLine : List Char := ['-', '-', '-']

/-- Split a line list at the first marker line. -/
def splitAtMarkerL : List (List Char) → Option (List (List Char) × List (List Char))
  | [] => none
  | l :: ls =>
    if l = markerLine then some ([], ls)
    else (splitAtMarkerL ls).map (fun p => (l :: p.1, p.2))

/-- Modelled from the spec: the collaborator frontmatter parser
(spec section 4.1).  No opening marker: no metadata, the body is the raw
text.  An opening marker with no closing marker, or an undecodable block,
is a parse failure.  Otherwise the decoded mapping plus the body that
starts right after the closing marker line. -/
def parseText (text : String) : Except String (Metadata × String) :=
  match splitLinesC text.data with
  | [] => .ok ([], text)
  | first :: rest =>
    if first = markerLine then
      match splitAtMarkerL rest with
      | none => .error "no closing frontmatter marker"
      | some (fmLines, bodyLines) =>
        match decodeFMAux [] fmLines with
        | .error e => .error e
        | .ok m => .ok (m, ⟨joinLinesC bodyLines⟩)
    else .ok ([], text)

/-- Does a plain rendering of the string survive decoding?  If not, the
serializer quotes it. -/
def needsQuote (s : List Char) : Bool :=
  match s with
  | [] => true
  | c :: _ => c = '"' || c = '[' || c = ' ' || s = "true".data || s = "false".data

/-- Modelled from the spec: serialize one metadata value. -/
def encodeValue : DValue → List Char
  | .str s => if needsQuote s.data then '"' :: s.data ++ ['"'] else s.data
  | .bool true => "true".data
  | .bool false => "false".data
  | .list l => '[' :: joinSepC csSep (l.map String.data) ++ [']']

/-- Modelled from the spec: serialize one `key: value` line. -/
def encodeFMLine (p : String × DValue) : List Char :=
  p.1.data ++ ':' :: ' ' :: encodeValue p.2

/-- Modelled from the spec: the collaborator serializer
(`frontmatter.dumps`): marker line, metadata lines, marker line, body
(spec sections 3, 6 and 8: serialization is the inverse of parsing). -/
def serializeDoc (m : Metadata) (body : String) : String :=
  ⟨joinLinesC ([markerLine] ++ m.map encodeFMLine ++ [markerLine] ++ splitLinesC body.data)⟩

/-- Python `' '.join` over the string elements of a decoded sequence. -/
def strJoinSP (l : List String) : String := ⟨joinSepC [' '] (l.map String.data)⟩

/-- Python `', '.join` over the string elements of a decoded sequence. -/
def strJoinCS (l : List String) : String := ⟨joinSepC csSep (l.map String.data)⟩

/-- `' '.join([f'[arg{i}]' for i in range(1, maxArg + 1)])`
(`src/fix_commands.py` line 164). -/
def argHintChars (n : Nat) : List Char :=
  joinSepC [' ']
    ((List.range' 1 n).map (fun i => '[' :: 'a' :: 'r' :: 'g' :: (natToChars i ++ [']'])))

/-- First block of `SlashCommandFixer._fix_metadata`
(`src/fix_commands.py` lines 143-146): a list-typed description is
joined into a string. -/
def fixDescStep (m : Metadata) : Metadata × List String :=
  match lookupMeta m "description" with
  | some (.list l) =>
    (setKey m "description" (.str (strJoinSP l)),
      ["Converted description from list to string"])
  | _ => (m, [])

/-- Second block of `_fix_metadata` (lines 148-151): a list-typed
argument-hint is joined into a string. -/
def fixHintTypeStep (m : Metadata) : Metadata × List String :=
  match lookupMeta m "argument-hint" with
  | some (.list l) =>
    (setKey m "argument-hint" (.str (strJoinSP l)),
      ["Converted argument-hint from list to string"])
  | _ => (m, [])

/-- Third block of `_fix_metadata` (lines 153-166): synthesize a missing
argument-hint from the body's placeholders, `$ARGUMENTS` taking
precedence over positional markers. -/
def addHintStep (m : Metadata) (b : List Char) : Metadata × List String :=
  let hasArguments := seqIn "$ARGUMENTS".data b
  let positional := posArgRuns b
  let hasPositional := !positional.isEmpty
  if (hasArguments || hasPositional) && (lookupMeta m "argument-hint").isNone then
    if hasArguments then
      (setKey m "argument-hint" (.str "[args]"),
        ["Added generic argument-hint for $ARGUMENTS usage"])
    else
      let maxArg := (positional.map natOfDigits).foldl Nat.max 0
      (setKey m "argument-hint" (.str ⟨argHintChars maxArg⟩),
        ["Added argument-hint for positional arguments ($1-$"
          ++ natToString maxArg ++ ")"])
  else (m, [])

/-- `SlashCommandFixer._fix_metadata` (`src/fix_commands.py` lines
138-168): the three blocks in source order, records concatenated. -/
def fix_metadata (m : Metadata) (body : String) : Metadata × List String :=
  let s1 := fixDescStep m
  let s2 := fixHintTypeStep s1.1
  let s3 := addHintStep s2.1 body.data
  (s3.1, s1.2 ++ s2.2 ++ s3.2)

/-- `SlashCommandFixer._check_bash_permissions` (`src/fix_commands.py`
lines 170-187).  The membership test `'Bash' not in allowed_tools`
raises a `TypeError` when the decoded value is a boolean, which the
caller catches as an unexpected error. -/
def check_bash_permissions (m : Metadata) (body : String) : Except String (List String) :=
  if (bashCmds body.data).isEmpty then .ok []
  else
    match lookupMeta m "allowed-tools" with
    | none => .ok ["Bash commands found but no allowed-tools defined"]
    | some (.bool _) => .error "argument of type 'bool' is not iterable"
    | some (.str s) =>
      if seqIn "Bash".data s.data then .ok []
      else .ok ["Bash commands found but Bash not in allowed-tools"]
    | some (.list l) =>
      if seqIn "Bash".data (strJoinCS l).data then .ok []
      else .ok ["Bash commands found but Bash not in allowed-tools"]

/-- `SlashCommandFixer._add_bash_to_allowed_tools` (`src/fix_commands.py`
lines 189-203), value-level behaviour: create the field as the bare
string `"Bash"`, append to a sequence, or join onto a string. -/
def add_bash_to_allowed_tools (m : Metadata) : Metadata :=
  match lookupMeta m "allowed-tools" with
  | none => setKey m "allowed-tools" (.str "Bash")
  | some (.list l) => setKey m "allowed-tools" (.list (l ++ ["Bash"]))
  | some (.str s) => setKey m "allowed-tools" (.str (s ++ ", Bash"))
  | some (.bool b) => setKey m "allowed-tools" (.str (pyBoolStr b ++ ", Bash"))

/-- The post-parse portion of `SlashCommandFixer.fix_file`
(`src/fix_commands.py` lines 88-95): metadata fixes, then the bash
permission check driving `_add_bash_to_allowed_tools`; a raised
`TypeError` aborts with an `Unexpected error` record and no new
metadata. -/
def fixParsed (m : Metadata) (b : String) : Option Metadata × List String :=
  let s1 := fix_metadata m b
  match check_bash_permissions m b with
  | .error e => (none, s1.2 ++ ["Unexpected error: " ++ e])
  | .ok bf =>
    (some (if bf.isEmpty then s1.1 else add_bash_to_allowed_tools s1.1), s1.2 ++ bf)

/-- Find the first `"\n---\n"` in the text after the opening marker
(the non-greedy `(.*?)\n---\n` of `_fix_frontmatter_syntax`). -/
def nlMarkerSplit : List Char → Option (List Char × List Char)
  | [] => none
  | c :: cs =>
    if c = '\n' ∧ leadsWith ['-', '-', '-', '\n'] cs then
      some ([], cs.drop 4)
    else (nlMarkerSplit cs).map (fun p => (c :: p.1, p.2))

/-- The per-line rewrite of `_fix_frontmatter_syntax`
(`src/fix_commands.py` lines 124-132): a `key: value` line whose value
contains an unquoted square bracket has the value wrapped in double
quotes. -/
def quoteBracketLine (l : List Char) : List Char × Option String :=
  match breakColon l with
  | none => (l, none)
  | some (k, rest) =>
    if validKey k then
      let v := rest.dropWhile (· = ' ')
      if v ≠ [] ∧ '[' ∈ v ∧ v.head? ≠ some '"' ∧ v.head? ≠ some '\'' then
        (k ++ ':' :: ' ' :: '"' :: (v ++ ['"']),
          some ("Quoted square brackets in '" ++ (⟨k⟩ : String) ++ "' field"))
      else (l, none)
    else (l, none)

/-- `SlashCommandFixer._fix_frontmatter_syntax` (`src/fix_commands.py`
lines 111-136): only a text of the shape
`---\n fm \n---\n body` is rewritten; each frontmatter line goes
through `quoteBracketLine` and the document is reassembled. -/
def fix_frontmatter_syntax (text : String) : String × List String :=
  if leadsWith "---\n".data text.data then
    match nlMarkerSplit (text.data.drop 4) with
    | none => (text, [])
    | some (fm, body) =>
      let results := (splitLinesC fm).map quoteBracketLine
      (⟨"---\n".data ++ joinLinesC (results.map Prod.fst)
          ++ '\n' :: '-' :: '-' :: '-' :: '\n' :: body⟩,
        results.filterMap Prod.snd)
  else (text, [])

/-- The parse-and-repair sequence of `SlashCommandFixer.fix_file`
(`src/fix_commands.py` lines 69-85): parse; on failure run the syntax
repair once and parse again; on a second failure give up with the
accumulated records plus a `Could not parse frontmatter` record. -/
def parseStage (text : String) :
    Except (List String) (Metadata × String × List String) :=
  match parseText text with
  | .ok (m, b) => .ok (m, b, [])
  | .error _ =>
    let p := fix_frontmatter_syntax text
    match parseText p.1 with
    | .ok (m, b) => .ok (m, b, p.2)
    | .error e => .error (p.2 ++ ["Could not parse frontmatter: " ++ e])

/-- `SlashCommandFixer.fix_file` (`src/fix_commands.py` lines 58-109),
abstracted over storage: the returned string is the stored text (the
input text itself when nothing is written), paired with the fix
records.  A document is rewritten only when the record list is
nonempty; the serializer output replaces the file. -/
def fix_file (text : String) : String × List String :=
  match parseStage text with
  | .error fixes => (text, fixes)
  | .ok (m, b, pre) =>
    match fixParsed m b with
    | (none, fxs) => (text, pre ++ fxs)
    | (some m2, fxs) =>
      if (pre ++ fxs).isEmpty then (text, [])
      else (serializeDoc m2 b, pre ++ fxs)

/-- `ValidationResult` (`src/validate_commands.py` lines 34-41), with the
severity-classified message lists.  In the source every `errors.append`
is paired with `is_valid = False`, so validity is the emptiness of the
error list. -/
structure VRes where
  errors : List String
  warnings : List String
  info : List String
  deriving DecidableEq, Repr

def VRes.is_valid (r : VRes) : Bool := r.errors.isEmpty

/-- `VALID_FRONTMATTER_FIELDS` (`src/validate_commands.py` lines 48-54). -/
def validFields : List String :=
  ["allowed-tools", "argument-hint", "description", "model", "disable-model-invocation"]

/-- `VALID_MODELS` (`src/validate_commands.py` lines 57-62). -/
def validModels : List String :=
  ["claude-3-5-sonnet-20241022", "claude-3-5-haiku-20241022",
   "claude-opus-4-20250514", "claude-sonnet-4-5-20250929"]

/-- Python `repr` of a string element inside `str(list)` (quote choice
only; escape sequences inside elements are not modelled). -/
def pyReprStr (e : String) : String :=
  if e.data.contains '\'' then "\"" ++ e ++ "\"" else "'" ++ e ++ "'"

/-- Python `str(value)` on a decoded metadata value. -/
def pyStr : DValue → String
  | .str s => s
  | .bool b => pyBoolStr b
  | .list l => "[" ++ strJoinCS (l.map pyReprStr) ++ "]"

/-- One tool name against `TOOL_PATTERNS`
(`src/validate_commands.py` lines 65-80): the anchored literal names,
`^Bash\(.+\)$`, `^SlashCommand.*$` and `^mcp__.+$` (a dot never crosses
a newline). -/
def toolPatternMatch (t : String) : Bool :=
  let d := t.data
  (["Read", "Write", "Edit", "View", "Grep", "Glob", "Task", "TodoWrite",
    "Create", "WebFetch", "WebSearch"] : List String).contains t
  || (leadsWith "Bash(".data d && d.getLast? = some ')' && decide (7 ≤ d.length)
      && (d.drop 5).dropLast.all (fun c => c ≠ '\n'))
  || (leadsWith "SlashCommand".data d && (d.drop 12).all (fun c => c ≠ '\n'))
  || (leadsWith "mcp__".data d && decide (6 ≤ d.length)
      && (d.drop 5).all (fun c => c ≠ '\n'))

/-- Python `s.split(',')`. -/
def splitComma : List Char → List (List Char)
  | [] => [[]]
  | c :: cs => if c = ',' then [] :: splitComma cs else consHead c (splitComma cs)

/-- `SlashCommandValidator._validate_allowed_tools`
(`src/validate_commands.py` lines 192-216): `(errors, warnings)`. -/
def validate_allowed_tools (v : DValue) : List String × List String :=
  let warnOf : List String → List String := fun ts =>
    (ts.map pyStrip).filterMap (fun t =>
      if t = "" then none
      else if toolPatternMatch t then none
      else some ("Tool '" ++ t ++ "' may not be a valid tool name"))
  match v with
  | .bool _ => (["'allowed-tools' must be a string or list"], [])
  | .str s => ([], warnOf ((splitComma s.data).map (fun t => (⟨t⟩ : String))))
  | .list l => ([], warnOf l)

/-- The unknown-fields warning of `_validate_frontmatter`
(`src/validate_commands.py` lines 145-147). -/
def unknownFieldsCheck (m : Metadata) : List String :=
  let unknown := (m.map Prod.fst).filter (fun k => !(validFields.contains k))
  if unknown.isEmpty then []
  else ["Unknown frontmatter fields: " ++ strJoinCS unknown]

/-- The description checks of `_validate_frontmatter` (lines 149-163):
`(errors, warnings)`. -/
def descCheck (m : Metadata) : List String × List String :=
  match lookupMeta m "description" with
  | none => ([], ["Missing 'description' field (recommended for /help listing)"])
  | some d =>
    let s : String :=
      match d with
      | .list l => strJoinSP l
      | _ => pyStr d
    let desc := pyStrip s
    if desc = "" then (["'description' field is empty"], [])
    else if 200 < desc.length then
      ([], ["'description' is very long (>200 chars). Consider shortening."])
    else ([], [])

/-- The allowed-tools check of `_validate_frontmatter` (lines 165-167). -/
def toolsCheck (m : Metadata) : List String × List String :=
  match lookupMeta m "allowed-tools" with
  | none => ([], [])
  | some v => validate_allowed_tools v

/-- The model warning of `_validate_frontmatter` (lines 169-173), for a
hashable value. -/
def modelCheck (mres : Option DValue) : List String :=
  match mres with
  | none => []
  | some (.str s) =>
    if validModels.contains s then []
    else ["Model '" ++ s ++ "' may not be valid. Check Claude documentation."]
  | some v => ["Model '" ++ pyStr v ++ "' may not be valid. Check Claude documentation."]

/-- The argument-hint emptiness warning of `_validate_frontmatter`
(lines 175-183). -/
def hintCheck (m : Metadata) : List String :=
  match lookupMeta m "argument-hint" with
  | none => []
  | some h =>
    let joined : String :=
      match h with
      | .list l => strJoinSP l
      | .str s' => s'
      | .bool b => pyBoolStr b
    let truthy : Bool :=
      match h with
      | .list _ => !joined.isEmpty
      | .str s' => !s'.isEmpty
      | .bool b => b
    if (if truthy then pyStrip joined else "") = "" then ["'argument-hint' is empty"]
    else []

/-- The disable-model-invocation type check of `_validate_frontmatter`
(lines 185-190). -/
def dmiCheck (m : Metadata) : List String :=
  match lookupMeta m "disable-model-invocation" with
  | none => []
  | some (.bool _) => []
  | some _ => ["'disable-model-invocation' must be a boolean (true/false)"]

/-- `SlashCommandValidator._validate_frontmatter`
(`src/validate_commands.py` lines 138-190): `(errors, warnings)` in
source order.  `model not in VALID_MODELS` raises `TypeError` on an
unhashable (list) value; the error value carries the exception message
and the lists accumulated before the raise. -/
def validate_frontmatter (m : Metadata) :
    Except (String × List String × List String) (List String × List String) :=
  if m.isEmpty then
    .ok ([], ["No frontmatter found. Consider adding 'description' field."])
  else
    let w1 := unknownFieldsCheck m
    let dres := descCheck m
    let tres := toolsCheck m
    match lookupMeta m "model" with
    | some (.list _) =>
      .error ("unhashable type: 'list'", dres.1 ++ tres.1, w1 ++ dres.2 ++ tres.2)
    | mres =>
      .ok (dres.1 ++ tres.1 ++ dmiCheck m,
        w1 ++ dres.2 ++ tres.2 ++ modelCheck mres ++ hintCheck m)

/-- `SlashCommandValidator._validate_content`
(`src/validate_commands.py` lines 218-246): `(errors, info)`.  The
metadata passed as `mcheck` is `_get_frontmatter_from_file` re-reading
the same document, hence the already-parsed metadata. -/
def validate_content (body : String) (mcheck : Option Metadata) :
    List String × List String :=
  if pyStrip body = "" then (["File has no content after frontmatter"], [])
  else
    let cmds := bashCmds body.data
    let bres : List String × List String :=
      if cmds.isEmpty then ([], [])
      else
        let i := ["Found " ++ natToString cmds.length ++ " bash command execution(s)"]
        let e : List String :=
          match mcheck with
          | none => []
          | some mc =>
            if mc.isEmpty then []
            else
              match lookupMeta mc "allowed-tools" with
              | none => []
              | some v =>
                if seqIn "Bash".data (pyStr v).data then []
                else ["Bash commands found but 'Bash' not in allowed-tools"]
        (e, i)
    let refs := fileRefs body.data
    let i2 : List String :=
      if refs.isEmpty then []
      else ["Found " ++ natToString refs.length ++ " file reference(s)"]
    let i3 : List String :=
      if seqIn "<ultrathink>".data body.data || seqIn "<megaexpertise>".data body.data
          || seqIn "<think>".data body.data || seqIn "<thinking>".data body.data then
        ["Extended thinking mode detected"]
      else []
    (bres.1, bres.2 ++ i2 ++ i3)

/-- `SlashCommandValidator._validate_arguments`
(`src/validate_commands.py` lines 248-267): warnings only. -/
def validate_arguments (m : Metadata) (body : String) : List String :=
  let hasArguments := seqIn "$ARGUMENTS".data body.data
  let hasPositional := !(posArgRuns body.data).isEmpty
  let w1 : List String :=
    if hasArguments && hasPositional then
      ["Mixed usage of $ARGUMENTS and positional args ($1, $2). Use one style."]
    else []
  let w2 : List String :=
    if (hasArguments || hasPositional) && (lookupMeta m "argument-hint").isNone then
      ["Arguments detected but no 'argument-hint' in frontmatter"]
    else []
  let w3 : List String :=
    if (lookupMeta m "argument-hint").isSome && !hasArguments && !hasPositional then
      ["'argument-hint' specified but no $ARGUMENTS or $N found in content"]
    else []
  w1 ++ w2 ++ w3

/-- The post-parse portion of `SlashCommandValidator.validate_file`
(`src/validate_commands.py` lines 123-134): frontmatter checks, then
content and argument checks; an exception is caught at the per-file
boundary, recorded, and skips the remaining checks. -/
def validateDoc (m : Metadata) (body : String) : VRes :=
  match validate_frontmatter m with
  | .error (msg, es, ws) => ⟨es ++ ["Unexpected error: " ++ msg], ws, []⟩
  | .ok (es, ws) =>
    let c := validate_content body (some m)
    let wa := validate_arguments m body
    ⟨es ++ c.1, ws ++ wa, c.2⟩

/-- `SlashCommandValidator.validate_file`
(`src/validate_commands.py` lines 105-136). -/
def validate_file (text : String) : VRes :=
  match parseText text with
  | .error e => ⟨["Failed to parse frontmatter: " ++ e], [], []⟩
  | .ok (m, b) => validateDoc m b

/-- Python values as references: strings and booleans are immutable,
a list value is a pointer into a heap of list objects.  This model
captures what `dict.copy()` shares: the association list is copied, the
list objects are not. -/
inductive PyVal where
  | pstr (s : String)
  | pbool (b : Bool)
  | plist (addr : Nat)
  deriving DecidableEq, Repr

/-- The store of list objects. -/
abbrev ListHeap := List (List String)

abbrev PyMeta := List (String × PyVal)

def readAddr (h : ListHeap) (a : Nat) : List String := h.getD a []

def writeAddr (h : ListHeap) (a : Nat) (l : List String) : ListHeap := h.set a l

def lookupPy : PyMeta → String → Option PyVal
  | [], _ => none
  | (k', v) :: m, k => if k' = k then some v else lookupPy m k

def setKeyPy : PyMeta → String → PyVal → PyMeta
  | [], k, v => [(k, v)]
  | (k', v') :: m, k, v =>
    if k' = k then (k, v) :: m else (k', v') :: setKeyPy m k v

/-- The value a reference denotes. -/
def derefVal (h : ListHeap) : PyVal → DValue
  | .pstr s => .str s
  | .pbool b => .bool b
  | .plist a => .list (readAddr h a)

/-- The metadata a dictionary of references denotes. -/
def derefMeta (h : ListHeap) (m : PyMeta) : Metadata :=
  m.map (fun p => (p.1, derefVal h p.2))

/-- `_add_bash_to_allowed_tools` (`src/fix_commands.py` lines 189-203)
at the object level: `new_metadata = metadata.copy()` copies the
association list only; for a list value, `tools.append('Bash')` writes
through the shared reference, and `new_metadata['allowed-tools'] =
tools` stores the same reference back. -/
def add_bash_to_allowed_tools_obj (h : ListHeap) (m : PyMeta) : ListHeap × PyMeta :=
  match lookupPy m "allowed-tools" with
  | none => (h, setKeyPy m "allowed-tools" (.pstr "Bash"))
  | some (.plist a) =>
    (writeAddr h a (readAddr h a ++ ["Bash"]), setKeyPy m "allowed-tools" (.plist a))
  | some (.pstr s) => (h, setKeyPy m "allowed-tools" (.pstr (s ++ ", Bash")))
  | some (.pbool b) => (h, setKeyPy m "allowed-tools" (.pstr (pyBoolStr b ++ ", Bash")))

/-- `_fix_metadata` at the object level: the joins build new strings, so
the heap is untouched; assignments land in the copied dictionary. -/
def fix_metadata_obj (h : ListHeap) (m : PyMeta) (body : String) : PyMeta × List String :=
  let b := body.data
  let step1 : PyMeta × List String :=
    match lookupPy m "description" with
    | some (.plist a) =>
      (setKeyPy m "description" (.pstr (strJoinSP (readAddr h a))),
        ["Converted description from list to string"])
    | _ => (m, [])
  let m1 := step1.1
  let step2 : PyMeta × List String :=
    match lookupPy m1 "argument-hint" with
    | some (.plist a) =>
      (setKeyPy m1 "argument-hint" (.pstr (strJoinSP (readAddr h a))),
        ["Converted argument-hint from list to string"])
    | _ => (m1, [])
  let m2 := step2.1
  let fixes := step1.2 ++ step2.2
  let hasArguments := seqIn "$ARGUMENTS".data b
  let positional := posArgRuns b
  let hasPositional := !positional.isEmpty
  if (hasArguments || hasPositional) && (lookupPy m2 "argument-hint").isNone then
    if hasArguments then
      (setKeyPy m2 "argument-hint" (.pstr "[args]"),
        fixes ++ ["Added generic argument-hint for $ARGUMENTS usage"])
    else
      let maxArg := (positional.map natOfDigits).foldl Nat.max 0
      (setKeyPy m2 "argument-hint" (.pstr ⟨argHintChars maxArg⟩),
        fixes ++ ["Added argument-hint for positional arguments ($1-$"
          ++ natToString maxArg ++ ")"])
  else (m2, fixes)

/-- The post-parse portion of `fix_file` (`src/fix_commands.py` lines
88-95) at the object level, returning the heap after the pass, the new
metadata (when no exception was raised) and the fix records.  The bash
check reads values through the heap. -/
def fix_parsed_obj (h : ListHeap) (m : PyMeta) (b : String) :
    ListHeap × Option PyMeta × List String :=
  let s1 := fix_metadata_obj h m b
  match check_bash_permissions (derefMeta h m) b with
  | .error e => (h, none, s1.2 ++ ["Unexpected error: " ++ e])
  | .ok bf =>
    if bf.isEmpty then (h, some s1.1, s1.2)
    else
      let p := add_bash_to_allowed_tools_obj h s1.1
      (p.1, some p.2, s1.2 ++ bf)

theorem lookupMeta_setKey_self (m : Metadata) (k : String) (v : DValue) :
    lookupMeta (setKey m k v) k = some v := by
  induction m with
  | nil => simp [setKey, lookupMeta]
  | cons p m ih =>
    obtain ⟨k', v'⟩ := p
    rw [setKey]
    split
    · simp [lookupMeta]
    · rename_i h
      rw [lookupMeta, if_neg h]
      exact ih

theorem lookupMeta_setKey_ne (m : Metadata) (k k' : String) (v : DValue)
    (h : k' ≠ k) : lookupMeta (setKey m k v) k' = lookupMeta m k' := by
  induction m with
  | nil =>
    simp only [setKey, lookupMeta]
    rw [if_neg (fun hk => h hk.symm)]
  | cons p m ih =>
    obtain ⟨k'', v''⟩ := p
    rw [setKey]
    split
    · rename_i hk
      subst hk
      rw [lookupMeta, lookupMeta, if_neg (fun hk => h hk.symm), if_neg (fun hk => h hk.symm)]
    · rw [lookupMeta, lookupMeta]
      split
      · rfl
      · exact ih

theorem fixDescStep_lookup_ne (m : Metadata) (k : String)
    (h : k ≠ "description") :
    lookupMeta (fixDescStep m).1 k = lookupMeta m k := by
  rw [fixDescStep]
  split
  · exact lookupMeta_setKey_ne _ _ _ _ h
  · rfl

theorem fixHintTypeStep_lookup_ne (m : Metadata) (k : String)
    (h : k ≠ "argument-hint") :
    lookupMeta (fixHintTypeStep m).1 k = lookupMeta m k := by
  rw [fixHintTypeStep]
  split
  · exact lookupMeta_setKey_ne _ _ _ _ h
  · rfl

theorem addHintStep_lookup_ne (m : Metadata) (b : List Char) (k : String)
    (h : k ≠ "argument-hint") :
    lookupMeta (addHintStep m b).1 k = lookupMeta m k := by
  rw [addHintStep]
  split
  · split
    · exact lookupMeta_setKey_ne _ _ _ _ h
    · exact lookupMeta_setKey_ne _ _ _ _ h
  · rfl

theorem fix_metadata_lookup_allowed_tools (m : Metadata) (b : String) :
    lookupMeta (fix_metadata m b).1 "allowed-tools" = lookupMeta m "allowed-tools" := by
  rw [fix_metadata]
  dsimp only
  rw [addHintStep_lookup_ne _ _ _ (by decide),
    fixHintTypeStep_lookup_ne _ _ (by decide),
    fixDescStep_lookup_ne _ _ (by decide)]

/-- Exact shape of `_fix_metadata` when the body has positional markers,
no catch-all marker, and no argument-hint exists yet. -/
theorem fix_metadata_positional_hint (m : Metadata) (b : String)
    (hnone : lookupMeta m "argument-hint" = none)
    (hcatch : seqIn "$ARGUMENTS".data b.data = false)
    (hpos : posArgRuns b.data ≠ []) :
    fix_metadata m b
      = (setKey (fixDescStep m).1 "argument-hint"
          (.str ⟨argHintChars (((posArgRuns b.data).map natOfDigits).foldl Nat.max 0)⟩),
         (fixDescStep m).2
           ++ ["Added argument-hint for positional arguments ($1-$"
                ++ natToString (((posArgRuns b.data).map natOfDigits).foldl Nat.max 0) ++ ")"]) := by
  have h1 : lookupMeta (fixDescStep m).1 "argument-hint" = none := by
    rw [fixDescStep_lookup_ne _ _ (by decide)]
    exact hnone
  have h2 : fixHintTypeStep (fixDescStep m).1 = ((fixDescStep m).1, []) := by
    rw [fixHintTypeStep, h1]
  have hne : (posArgRuns b.data).isEmpty = false := by
    rcases hh : (posArgRuns b.data).isEmpty with _ | _
    · rfl
    · exact absurd (by simpa using hh) hpos
  rw [fix_metadata]
  rw [h2]
  rw [addHintStep]
  simp [hcatch, hne, h1]

/-- C5: for every document with no existing argument-hint field and no
catch-all marker whose body contains positional markers, the fixer adds
an argument-hint enumerating `[arg1]` through `[argN]` contiguously
regardless of gaps, where `N` is the maximum positional index found
(the fold of `max` over all matched indices), and records the fix. -/
theorem argument_hint_synthesis (m : Metadata) (b : String)
    (hnone : lookupMeta m "argument-hint" = none)
    (hcatch : seqIn "$ARGUMENTS".data b.data = false)
    (hpos : posArgRuns b.data ≠ []) :
    lookupMeta (fix_metadata m b).1 "argument-hint"
      = some (.str ⟨argHintChars (((posArgRuns b.data).map natOfDigits).foldl Nat.max 0)⟩)
    ∧ ("Added argument-hint for positional arguments ($1-$"
        ++ natToString (((posArgRuns b.data).map natOfDigits).foldl Nat.max 0) ++ ")")
      ∈ (fix_metadata m b).2 := by
  rw [fix_metadata_positional_hint m b hnone hcatch hpos]
  exact ⟨lookupMeta_setKey_self .., by simp⟩

/-- Witness for C5: a body containing only `$1` and `$3` yields the
literal hint `"[arg1] [arg2] [arg3]"` (gap at `$2` filled). -/
theorem argument_hint_synthesis_witness :
    lookupMeta (fix_metadata [] "Use $1 and $3").1 "argument-hint"
      = some (.str "[arg1] [arg2] [arg3]")
    ∧ "Added argument-hint for positional arguments ($1-$3)"
      ∈ (fix_metadata [] "Use $1 and $3").2 := by
  have h := argument_hint_synthesis [] "Use $1 and $3" (by decide) (by decide) (by decide)
  constructor
  · rw [h.1]
    decide
  · have hs : ("Added argument-hint for positional arguments ($1-$"
        ++ natToString (((posArgRuns ("Use $1 and $3" : String).data).map natOfDigits).foldl Nat.max 0)
        ++ ")") = "Added argument-hint for positional arguments ($1-$3)" := by decide
    rw [← hs]
    exact h.2

/-- C10: for every document with no existing argument-hint and no
catch-all marker whose positional markers have maximum index 0 (a body
using only `$0`), the fixer sets argument-hint to the empty string and
still records a fix, because the synthesized enumeration starts at 1. -/
theorem zero_positional_empty_hint (m : Metadata) (b : String)
    (hnone : lookupMeta m "argument-hint" = none)
    (hcatch : seqIn "$ARGUMENTS".data b.data = false)
    (hpos : posArgRuns b.data ≠ [])
    (hmax : ((posArgRuns b.data).map natOfDigits).foldl Nat.max 0 = 0) :
    lookupMeta (fix_metadata m b).1 "argument-hint" = some (.str "")
    ∧ "Added argument-hint for positional arguments ($1-$0)" ∈ (fix_metadata m b).2 := by
  have h := fix_metadata_positional_hint m b hnone hcatch hpos
  rw [hmax] at h
  rw [h]
  constructor
  · rw [lookupMeta_setKey_self]
    decide
  · have hs : ("Added argument-hint for positional arguments ($1-$"
        ++ natToString 0 ++ ")") = "Added argument-hint for positional arguments ($1-$0)" := by
      decide
    rw [← hs]
    simp

/-- Witness for C10 at the body `"echo $0"`. -/
theorem zero_positional_empty_hint_witness :
    lookupMeta (fix_metadata [] "echo $0").1 "argument-hint" = some (.str "")
    ∧ "Added argument-hint for positional arguments ($1-$0)"
      ∈ (fix_metadata [] "echo $0").2 :=
  zero_positional_empty_hint [] "echo $0" (by decide) (by decide) (by decide) (by decide)

theorem add_bash_lookup_none (m : Metadata)
    (h : lookupMeta m "allowed-tools" = none) :
    lookupMeta (add_bash_to_allowed_tools m) "allowed-tools" = some (.str "Bash") := by
  rw [add_bash_to_allowed_tools, h]
  exact lookupMeta_setKey_self ..

theorem add_bash_lookup_str (m : Metadata) (s : String)
    (h : lookupMeta m "allowed-tools" = some (.str s)) :
    lookupMeta (add_bash_to_allowed_tools m) "allowed-tools"
      = some (.str (s ++ ", Bash")) := by
  rw [add_bash_to_allowed_tools, h]
  exact lookupMeta_setKey_self ..

theorem add_bash_lookup_list (m : Metadata) (l : List String)
    (h : lookupMeta m "allowed-tools" = some (.list l)) :
    lookupMeta (add_bash_to_allowed_tools m) "allowed-tools"
      = some (.list (l ++ ["Bash"])) := by
  rw [add_bash_to_allowed_tools, h]
  exact lookupMeta_setKey_self ..

/-- C4: for every document whose body contains a shell-execution marker:
with `allowed-tools` the string `"Edit"` the fixer produces the string
`"Edit, Bash"`; with a sequence value the fixer appends `"Bash"` exactly
when the capability is not already present (never duplicating it); with
the field absent the fixer creates it as the bare string `"Bash"`. -/
theorem permission_synthesis (m : Metadata) (b : String)
    (hb : bashCmds b.data ≠ []) :
    (lookupMeta m "allowed-tools" = some (.str "Edit") →
      ∃ m2, (fixParsed m b).1 = some m2 ∧
        lookupMeta m2 "allowed-tools" = some (.str "Edit, Bash"))
    ∧ (∀ l, lookupMeta m "allowed-tools" = some (.list l) →
      ∃ m2, (fixParsed m b).1 = some m2 ∧
        lookupMeta m2 "allowed-tools"
          = some (.list (if seqIn "Bash".data (strJoinCS l).data then l
                         else l ++ ["Bash"])))
    ∧ (lookupMeta m "allowed-tools" = none →
      ∃ m2, (fixParsed m b).1 = some m2 ∧
        lookupMeta m2 "allowed-tools" = some (.str "Bash")) := by
  have hbe : (bashCmds b.data).isEmpty = false := by
    rcases hh : (bashCmds b.data).isEmpty with _ | _
    · rfl
    · exact absurd (by simpa using hh) hb
  have hm1 := fix_metadata_lookup_allowed_tools m b
  refine ⟨?_, ?_, ?_⟩
  · intro h
    have hs : seqIn "Bash".data ("Edit" : String).data = false := by decide
    have hc : check_bash_permissions m b
        = .ok ["Bash commands found but Bash not in allowed-tools"] := by
      rw [check_bash_permissions, hbe]
      simp [h, hs]
    rw [fixParsed, hc]
    refine ⟨_, rfl, ?_⟩
    show lookupMeta (add_bash_to_allowed_tools (fix_metadata m b).1) "allowed-tools" = _
    rw [add_bash_lookup_str _ _ (hm1.trans h)]
    have he : ("Edit" ++ ", Bash" : String) = "Edit, Bash" := by decide
    rw [he]
  · intro l h
    rcases hdecl : seqIn "Bash".data (strJoinCS l).data with _ | _
    · have hc : check_bash_permissions m b
          = .ok ["Bash commands found but Bash not in allowed-tools"] := by
        rw [check_bash_permissions, hbe]
        simp [h, hdecl]
      rw [fixParsed, hc]
      refine ⟨_, rfl, ?_⟩
      show lookupMeta (add_bash_to_allowed_tools (fix_metadata m b).1) "allowed-tools" = _
      rw [add_bash_lookup_list _ _ (hm1.trans h)]
      rfl
    · have hc : check_bash_permissions m b = .ok [] := by
        rw [check_bash_permissions, hbe]
        simp [h, hdecl]
      rw [fixParsed, hc]
      refine ⟨_, rfl, ?_⟩
      show lookupMeta (fix_metadata m b).1 "allowed-tools" = _
      rw [hm1.trans h]
      simp
  · intro h
    have hc : check_bash_permissions m b
        = .ok ["Bash commands found but no allowed-tools defined"] := by
      rw [check_bash_permissions, hbe]
      simp [h]
    rw [fixParsed, hc]
    refine ⟨_, rfl, ?_⟩
    show lookupMeta (add_bash_to_allowed_tools (fix_metadata m b).1) "allowed-tools" = _
    exact add_bash_lookup_none _ (hm1.trans h)

/-- Witness for C4 at the string case: `allowed-tools: "Edit"` with a
bash marker in the body becomes `allowed-tools: "Edit, Bash"`. -/
theorem permission_synthesis_witness :
    bashCmds ("Run !`ls` now" : String).data ≠ []
    ∧ ∃ m2, (fixParsed [("allowed-tools", DValue.str "Edit")] "Run !`ls` now").1 = some m2
        ∧ lookupMeta m2 "allowed-tools" = some (.str "Edit, Bash") := by
  refine ⟨by decide, ?_⟩
  exact (permission_synthesis [("allowed-tools", DValue.str "Edit")] "Run !`ls` now"
    (by decide)).1 rfl

/-- C3 (code bug in `_add_bash_to_allowed_tools`): the fixer is
documented never to mutate the input Document, and `_fix_metadata` and
`fix_file` copy the metadata dictionary for that purpose, but the copy
is shallow: at a document whose metadata maps allowed-tools to the list
object `["Edit"]` and whose body holds a shell marker, `tools.append`
writes through the shared reference, so after the pass the input
document's own metadata reads `["Edit", "Bash"]`. -/
theorem input_metadata_mutated_in_place :
    derefMeta [["Edit"]] [("allowed-tools", PyVal.plist 0)]
      = [("allowed-tools", DValue.list ["Edit"])]
    ∧ derefMeta
        (fix_parsed_obj [["Edit"]] [("allowed-tools", PyVal.plist 0)] "Run !`ls` now").1
        [("allowed-tools", PyVal.plist 0)]
      = [("allowed-tools", DValue.list ["Edit", "Bash"])] := by
  exact ⟨by decide, by decide⟩

theorem descCheck_shape (m : Metadata) :
    (descCheck m).1 = [] ∨ (descCheck m).1 = ["'description' field is empty"] := by
  rw [descCheck]
  split
  · exact Or.inl rfl
  · dsimp only
    split
    · exact Or.inr rfl
    · split
      · exact Or.inl rfl
      · exact Or.inl rfl

theorem descCheck_errors (m : Metadata) :
    ∀ e ∈ (descCheck m).1, e = "'description' field is empty" := by
  intro e he
  rcases descCheck_shape m with h | h <;> rw [h] at he
  · simp at he
  · simpa using he

theorem validate_allowed_tools_errors (v : DValue) :
    ∀ e ∈ (validate_allowed_tools v).1, e = "'allowed-tools' must be a string or list" := by
  intro e he
  cases v with
  | bool b => simpa [validate_allowed_tools] using he
  | str s => simp [validate_allowed_tools] at he
  | list l => simp [validate_allowed_tools] at he

theorem toolsCheck_errors (m : Metadata) :
    ∀ e ∈ (toolsCheck m).1, e = "'allowed-tools' must be a string or list" := by
  intro e he
  rw [toolsCheck] at he
  split at he
  · simp at he
  · exact validate_allowed_tools_errors _ e he

theorem dmiCheck_errors (m : Metadata) :
    ∀ e ∈ dmiCheck m, e = "'disable-model-invocation' must be a boolean (true/false)" := by
  intro e he
  rw [dmiCheck] at he
  split at he
  · simp at he
  · simp at he
  · simpa using he

/-- When the model field is not list-valued, the frontmatter phase
succeeds and its error list never contains the bash-permission error. -/
theorem validate_frontmatter_ok (m : Metadata)
    (hmodel : ∀ l, lookupMeta m "model" ≠ some (.list l)) :
    ∃ es ws, validate_frontmatter m = .ok (es, ws) ∧
      "Bash commands found but 'Bash' not in allowed-tools" ∉ es := by
  rw [validate_frontmatter]
  split
  · exact ⟨_, _, rfl, by simp⟩
  · split
    · rename_i l heq
      exact absurd heq (hmodel l)
    · refine ⟨_, _, rfl, ?_⟩
      intro hmem
      rcases List.mem_append.mp hmem with hmem | hmem
      · rcases List.mem_append.mp hmem with hmem | hmem
        · exact absurd (descCheck_errors m _ hmem) (by decide)
        · exact absurd (toolsCheck_errors m _ hmem) (by decide)
      · exact absurd (dmiCheck_errors m _ hmem) (by decide)

theorem bashCmdsAux_bang_mem : ∀ (fuel : Nat) (cs : List Char),
    bashCmdsAux fuel cs ≠ [] → '!' ∈ cs
  | 0, _, h => absurd rfl h
  | _ + 1, [], h => absurd rfl h
  | fuel + 1, c :: cs, h => by
    rw [bashCmdsAux] at h
    split at h
    · rename_i hcond
      exact List.mem_cons.mpr (Or.inl hcond.1.symm)
    · exact List.mem_cons.mpr (Or.inr (bashCmdsAux_bang_mem fuel cs h))

theorem pyStripC_ne_nil_of_mem {cs : List Char} {c : Char} (hc : c ∈ cs)
    (hns : isPySpace c = false) : pyStripC cs ≠ [] := by
  intro h
  have h2 := (pyStripC_eq_nil_iff cs).mp h c hc
  rw [hns] at h2
  exact absurd h2 (by simp)

theorem pyStrip_ne_empty_of_bash {b : String} (hb : bashCmds b.data ≠ []) :
    pyStrip b ≠ "" := by
  intro h
  have hmem : '!' ∈ b.data := bashCmdsAux_bang_mem _ _ hb
  have hne : pyStripC b.data ≠ [] := pyStripC_ne_nil_of_mem hmem (by decide)
  exact hne (congrArg String.data h)

/-- Exact bash-permission error condition of the content phase: with a
shell marker present, the error appears exactly when the rechecked
metadata is nonempty and carries an allowed-tools value whose `str()`
rendering lacks the substring `Bash`. -/
theorem validate_content_bash_iff (b : String) (m : Metadata)
    (hb : bashCmds b.data ≠ []) :
    ("Bash commands found but 'Bash' not in allowed-tools"
        ∈ (validate_content b (some m)).1
      ↔ (m ≠ [] ∧ ∃ v, lookupMeta m "allowed-tools" = some v
          ∧ seqIn "Bash".data (pyStr v).data = false)) := by
  have hbe : (bashCmds b.data).isEmpty = false := by
    rcases hh : (bashCmds b.data).isEmpty with _ | _
    · rfl
    · exact absurd (by simpa using hh) hb
  have hstrip : ¬ (pyStrip b = "") := pyStrip_ne_empty_of_bash hb
  rcases hEmpty : m.isEmpty with _ | _
  · rcases hv : lookupMeta m "allowed-tools" with _ | v
    · have hc : (validate_content b (some m)).1 = [] := by
        rw [validate_content, if_neg hstrip]
        simp [hbe, hEmpty, hv]
      rw [hc]
      simp only [List.not_mem_nil, false_iff, not_and]
      rintro _ ⟨w, hw, _⟩
      exact Option.noConfusion hw
    · rcases hs : seqIn "Bash".data (pyStr v).data with _ | _
      · have hc : (validate_content b (some m)).1
            = ["Bash commands found but 'Bash' not in allowed-tools"] := by
          rw [validate_content, if_neg hstrip]
          simp [hbe, hEmpty, hv, hs]
        rw [hc]
        simp only [List.mem_singleton, true_iff]
        exact ⟨by simpa [List.isEmpty_iff] using hEmpty, v, rfl, hs⟩
      · have hc : (validate_content b (some m)).1 = [] := by
          rw [validate_content, if_neg hstrip]
          simp [hbe, hEmpty, hv, hs]
        rw [hc]
        simp only [List.not_mem_nil, false_iff, not_and]
        rintro _ ⟨w, hw, hsw⟩
        injection hw with hw
        subst hw
        rw [hs] at hsw
        exact Bool.noConfusion hsw
  · have hc : (validate_content b (some m)).1 = [] := by
      rw [validate_content, if_neg hstrip]
      simp [hbe, hEmpty]
    rw [hc]
    simp only [List.not_mem_nil, false_iff, not_and]
    intro hne
    exact absurd (by simpa [List.isEmpty_iff] using hEmpty) hne

/-- With a shell marker and a hashable model field, the bash-permission
error of the whole per-document validation appears exactly under the
content-phase condition. -/
theorem bashMsg_mem_validateDoc_iff (m : Metadata) (b : String)
    (hb : bashCmds b.data ≠ [])
    (hmodel : ∀ l, lookupMeta m "model" ≠ some (.list l)) :
    ("Bash commands found but 'Bash' not in allowed-tools" ∈ (validateDoc m b).errors
      ↔ (m ≠ [] ∧ ∃ v, lookupMeta m "allowed-tools" = some v
          ∧ seqIn "Bash".data (pyStr v).data = false)) := by
  obtain ⟨es, ws, hok, hnot⟩ := validate_frontmatter_ok m hmodel
  have hdoc : validateDoc m b
      = ⟨es ++ (validate_content b (some m)).1,
         ws ++ validate_arguments m b, (validate_content b (some m)).2⟩ := by
    unfold validateDoc
    rw [hok]
  rw [hdoc]
  dsimp only
  rw [List.mem_append]
  constructor
  · rintro (h | h)
    · exact absurd h hnot
    · exact (validate_content_bash_iff b m hb).mp h
  · intro h
    exact Or.inr ((validate_content_bash_iff b m hb).mpr h)

theorem seqIn_bash_joinSep (L : List (List Char)) :
    seqIn "Bash".data (joinSepC csSep L) = true ↔ ∃ e ∈ L, seqIn "Bash".data e = true := by
  induction L with
  | nil =>
    constructor
    · intro h
      exact absurd h (by decide)
    · rintro ⟨e, he, _⟩
      simp at he
  | cons e L ih =>
    cases L with
    | nil =>
      rw [show joinSepC csSep [e] = e from rfl]
      constructor
      · intro h
        exact ⟨e, by simp, h⟩
      · rintro ⟨e', he', h⟩
        rw [List.mem_singleton] at he'
        subst he'
        exact h
    | cons e2 L2 =>
      rw [show joinSepC csSep (e :: e2 :: L2) = e ++ csSep ++ joinSepC csSep (e2 :: L2)
          from rfl]
      rw [seqIn_append_mid "Bash".data (by decide) e csSep _ (by decide) (by decide)]
      rw [Bool.or_eq_true, ih]
      constructor
      · rintro (h | ⟨e', he', h⟩)
        · exact ⟨e, by simp, h⟩
        · exact ⟨e', by simp [he'], h⟩
      · rintro ⟨e', he', h⟩
        rcases List.mem_cons.mp he' with rfl | he'
        · exact Or.inl h
        · exact Or.inr ⟨e', he', h⟩

theorem seqIn_bash_wrap (x y : Char) (M : List Char)
    (hx : x ∉ ("Bash".data : List Char)) (hy : y ∉ ("Bash".data : List Char)) :
    seqIn "Bash".data (x :: (M ++ [y])) = seqIn "Bash".data M := by
  have h1 := seqIn_append_mid "Bash".data (by decide) [] [x] (M ++ [y]) (by simp)
    (by intro c hc; rw [List.mem_singleton] at hc; subst hc; exact hx)
  have h2 := seqIn_append_mid "Bash".data (by decide) M [y] [] (by simp)
    (by intro c hc; rw [List.mem_singleton] at hc; subst hc; exact hy)
  rw [List.nil_append] at h1
  rw [List.append_nil] at h2
  rw [show ([x] : List Char) ++ (M ++ [y]) = x :: (M ++ [y]) from rfl] at h1
  rw [h1, h2]
  have hpat : seqIn "Bash".data ([] : List Char) = false := by decide
  rw [hpat]
  simp

theorem seqIn_bash_pyReprStr (e : String) :
    seqIn "Bash".data (pyReprStr e).data = seqIn "Bash".data e.data := by
  rw [pyReprStr]
  split
  · rw [show ("\"" ++ e ++ "\"" : String).data = '"' :: (e.data ++ ['"']) from by
      simp [String.data_append]]
    exact seqIn_bash_wrap '"' '"' e.data (by decide) (by decide)
  · rw [show ("'" ++ e ++ "'" : String).data = '\'' :: (e.data ++ ['\'']) from by
      simp [String.data_append]]
    exact seqIn_bash_wrap '\'' '\'' e.data (by decide) (by decide)

theorem seqIn_bash_strJoinCS (l : List String) :
    seqIn "Bash".data (strJoinCS l).data = true
      ↔ ∃ e ∈ l, seqIn "Bash".data e.data = true := by
  rw [show (strJoinCS l).data = joinSepC csSep (l.map String.data) from rfl]
  rw [seqIn_bash_joinSep]
  constructor
  · rintro ⟨d, hd, h⟩
    obtain ⟨e, he, rfl⟩ := List.mem_map.mp hd
    exact ⟨e, he, h⟩
  · rintro ⟨e, he, h⟩
    exact ⟨e.data, List.mem_map.mpr ⟨e, he, rfl⟩, h⟩

theorem seqIn_bash_pyStr_list (l : List String) :
    seqIn "Bash".data (pyStr (.list l)).data = true
      ↔ ∃ e ∈ l, seqIn "Bash".data e.data = true := by
  rw [pyStr]
  rw [show ("[" ++ strJoinCS (l.map pyReprStr) ++ "]" : String).data
      = '[' :: ((strJoinCS (l.map pyReprStr)).data ++ [']']) from by
    simp [String.data_append]]
  rw [seqIn_bash_wrap '[' ']' _ (by decide) (by decide)]
  rw [show (strJoinCS (l.map pyReprStr)).data
      = joinSepC csSep ((l.map pyReprStr).map String.data) from rfl]
  rw [seqIn_bash_joinSep]
  constructor
  · rintro ⟨d, hd, h⟩
    obtain ⟨r, hr, rfl⟩ := List.mem_map.mp hd
    obtain ⟨e, he, rfl⟩ := List.mem_map.mp hr
    rw [seqIn_bash_pyReprStr] at h
    exact ⟨e, he, h⟩
  · rintro ⟨e, he, h⟩
    refine ⟨(pyReprStr e).data,
      List.mem_map.mpr ⟨pyReprStr e, List.mem_map.mpr ⟨e, he, rfl⟩, rfl⟩, ?_⟩
    rw [seqIn_bash_pyReprStr]
    exact h

/-- C6 counterexample: a document whose body contains a shell-execution
marker and whose metadata has no allowed-tools field at all.  The claim
demands an Error diagnostic for the absent field, but the validator's
error list is empty (the source only checks a *present* field). -/
theorem validator_silent_when_allowed_tools_absent :
    bashCmds ("Run !`ls` now" : String).data ≠ []
    ∧ (parseText "---\ndescription: run listing\n---\nRun !`ls` now"
        = .ok ([("description", DValue.str "run listing")], "Run !`ls` now"))
    ∧ lookupMeta [("description", DValue.str "run listing")] "allowed-tools" = none
    ∧ (validate_file "---\ndescription: run listing\n---\nRun !`ls` now").errors = [] := by
  exact ⟨by decide, by rfl, by decide, by decide⟩

/-- C6 (amended): for every document whose body contains a
shell-execution marker (and whose model field is hashable, so the
frontmatter phase does not abort), the validator emits the
bash-permission Error exactly when the metadata block is nonempty and
the allowed-tools field is present with a value whose string rendering
lacks the substring `Bash`; an absent field never yields the Error. -/
theorem bash_error_requires_declared_field (m : Metadata) (b : String)
    (hb : bashCmds b.data ≠ [])
    (hmodel : ∀ l, lookupMeta m "model" ≠ some (.list l)) :
    ("Bash commands found but 'Bash' not in allowed-tools" ∈ (validateDoc m b).errors
      ↔ (m ≠ [] ∧ ∃ v, lookupMeta m "allowed-tools" = some v
          ∧ seqIn "Bash".data (pyStr v).data = false)) :=
  bashMsg_mem_validateDoc_iff m b hb hmodel

/-- Witness for C6 at a present undeclared field: `allowed-tools:
"Edit"` with a bash marker makes the validator emit the Error. -/
theorem bash_error_requires_declared_field_witness :
    bashCmds ("Run !`ls` now" : String).data ≠ []
    ∧ "Bash commands found but 'Bash' not in allowed-tools"
        ∈ (validateDoc [("allowed-tools", DValue.str "Edit")] "Run !`ls` now").errors := by
  refine ⟨by decide, ?_⟩
  refine (bash_error_requires_declared_field [("allowed-tools", DValue.str "Edit")]
    "Run !`ls` now" (by decide) ?_).mpr ⟨by decide, DValue.str "Edit", by decide, by decide⟩
  intro l h
  rw [show lookupMeta [("allowed-tools", DValue.str "Edit")] "model" = none from by decide] at h
  exact Option.noConfusion h

/-- C7 counterexample: at a document whose description field is present
but empty, the validator classifies the below-minimum length as an
Error and emits no Warning at all, refuting both the "too short Warning"
half and the "never Error" half of the claim. -/
theorem empty_description_is_error :
    (validate_file "---\ndescription: \"\"\n---\nsome body text").errors
      = ["'description' field is empty"]
    ∧ (validate_file "---\ndescription: \"\"\n---\nsome body text").warnings = [] := by
  exact ⟨by decide, by decide⟩

/-- C7 (amended): exact description-length behaviour for a present
string-valued description: stripping to empty yields the Error
"description field is empty"; a length over 200 yields the "very long"
Warning; otherwise neither; no minimum-length "too short" Warning
exists. -/
theorem description_length_diagnostics (s : String) :
    validate_frontmatter [("description", DValue.str s)]
      = .ok ((if pyStrip s = "" then ["'description' field is empty"] else []),
             (if pyStrip s = "" then []
              else if 200 < (pyStrip s).length then
                ["'description' is very long (>200 chars). Consider shortening."]
              else [])) := by
  have h0 : validate_frontmatter [("description", DValue.str s)]
      = .ok ((descCheck [("description", DValue.str s)]).1,
             (descCheck [("description", DValue.str s)]).2) := by
    show Except.ok
        ((descCheck [("description", DValue.str s)]).1 ++ [] ++ [],
          [] ++ (descCheck [("description", DValue.str s)]).2 ++ [] ++ [] ++ []) = _
    simp
  have hd : descCheck [("description", DValue.str s)]
      = (if pyStrip s = "" then (["'description' field is empty"], [])
         else if 200 < (pyStrip s).length then
           ([], ["'description' is very long (>200 chars). Consider shortening."])
         else ([], [])) := rfl
  rw [h0, hd]
  by_cases h1 : pyStrip s = ""
  · simp [h1]
  · by_cases h2 : 200 < (pyStrip s).length
    · simp [h1, h2]
    · simp [h1, h2]

/-- C9: for every document whose body contains a shell-execution marker
and whose allowed-tools field is present as a string or a sequence, the
fixer's permission check and the validator's permission check both treat
the shell capability as declared exactly when the value contains `Bash`
as a substring — for a sequence, exactly when some entry contains it —
so an entry merely containing the substring (a parametrized form, or an
unrelated name) suppresses both the error and the fix. -/
theorem bash_detection_substring_criterion (m : Metadata) (b : String)
    (hb : bashCmds b.data ≠ [])
    (hmodel : ∀ l, lookupMeta m "model" ≠ some (.list l)) :
    (∀ s, lookupMeta m "allowed-tools" = some (.str s) →
      ((check_bash_permissions m b = .ok [] ↔ seqIn "Bash".data s.data = true)
       ∧ ("Bash commands found but 'Bash' not in allowed-tools"
            ∉ (validateDoc m b).errors ↔ seqIn "Bash".data s.data = true)))
    ∧ (∀ l, lookupMeta m "allowed-tools" = some (.list l) →
      ((check_bash_permissions m b = .ok []
          ↔ ∃ e ∈ l, seqIn "Bash".data e.data = true)
       ∧ ("Bash commands found but 'Bash' not in allowed-tools"
            ∉ (validateDoc m b).errors
          ↔ ∃ e ∈ l, seqIn "Bash".data e.data = true))) := by
  have hbe : (bashCmds b.data).isEmpty = false := by
    rcases hh : (bashCmds b.data).isEmpty with _ | _
    · rfl
    · exact absurd (by simpa using hh) hb
  have hmem := bashMsg_mem_validateDoc_iff m b hb hmodel
  constructor
  · intro s h
    have hmne : m ≠ [] := by
      intro he
      rw [he] at h
      exact Option.noConfusion h
    constructor
    · rw [check_bash_permissions]
      simp only [hbe, Bool.false_eq_true, if_false, h]
      rcases hs : seqIn "Bash".data s.data with _ | _
      · simp
      · simp
    · have hspec : ("Bash commands found but 'Bash' not in allowed-tools"
          ∈ (validateDoc m b).errors) ↔ seqIn "Bash".data s.data = false := by
        rw [hmem]
        constructor
        · rintro ⟨_, v, hv, hsv⟩
          rw [h] at hv
          injection hv with hv
          subst hv
          exact hsv
        · intro hsv
          exact ⟨hmne, .str s, h, hsv⟩
      rw [hspec]
      simp
  · intro l h
    have hmne : m ≠ [] := by
      intro he
      rw [he] at h
      exact Option.noConfusion h
    constructor
    · rw [check_bash_permissions]
      simp only [hbe, Bool.false_eq_true, if_false, h]
      rcases hs : seqIn "Bash".data (strJoinCS l).data with _ | _
      · simp only [Bool.false_eq_true, if_false]
        constructor
        · intro hcontra
          exact absurd hcontra (by simp)
        · intro hex
          have h2 := (seqIn_bash_strJoinCS l).mpr hex
          rw [hs] at h2
          exact Bool.noConfusion h2
      · simp only [if_true]
        constructor
        · intro _
          exact (seqIn_bash_strJoinCS l).mp hs
        · intro _
          trivial
    · have hspec : ("Bash commands found but 'Bash' not in allowed-tools"
          ∈ (validateDoc m b).errors)
            ↔ seqIn "Bash".data (pyStr (.list l)).data = false := by
        rw [hmem]
        constructor
        · rintro ⟨_, v, hv, hsv⟩
          rw [h] at hv
          injection hv with hv
          subst hv
          exact hsv
        · intro hsv
          exact ⟨hmne, .list l, h, hsv⟩
      rw [hspec]
      rw [show (seqIn "Bash".data (pyStr (.list l)).data = false)
          ↔ ¬ (seqIn "Bash".data (pyStr (.list l)).data = true) from by simp]
      rw [not_not]
      exact seqIn_bash_pyStr_list l

/-- Witness for C9 at a sequence whose second entry is the parametrized
form `Bash(git add:*)`: both checks are suppressed. -/
theorem bash_detection_substring_criterion_witness :
    bashCmds ("Run !`ls`" : String).data ≠ []
    ∧ check_bash_permissions
        [("allowed-tools", DValue.list ["Edit", "Bash(git add:*)"])] "Run !`ls`" = .ok []
    ∧ "Bash commands found but 'Bash' not in allowed-tools"
        ∉ (validateDoc
            [("allowed-tools", DValue.list ["Edit", "Bash(git add:*)"])] "Run !`ls`").errors := by
  have hmodel : ∀ l, lookupMeta
      [("allowed-tools", DValue.list ["Edit", "Bash(git add:*)"])] "model"
        ≠ some (.list l) := by
    intro l hl
    rw [show lookupMeta [("allowed-tools", DValue.list ["Edit", "Bash(git add:*)"])] "model"
        = none from by decide] at hl
    exact Option.noConfusion hl
  have h := (bash_detection_substring_criterion
      [("allowed-tools", DValue.list ["Edit", "Bash(git add:*)"])] "Run !`ls`"
      (by decide) hmodel).2 ["Edit", "Bash(git add:*)"] rfl
  exact ⟨by decide, h.1.mpr ⟨"Bash(git add:*)", by decide, by decide⟩,
    h.2.mpr ⟨"Bash(git add:*)", by decide, by decide⟩⟩

theorem splitAtMarkerL_eq_none (L : List (List Char)) (h : markerLine ∉ L) :
    splitAtMarkerL L = none := by
  induction L with
  | nil => rfl
  | cons l ls ih =>
    rw [splitAtMarkerL, if_neg (fun he => h (by rw [← he]; exact List.mem_cons_self ..))]
    rw [ih (fun hm => h (List.mem_cons.mpr (Or.inr hm)))]
    rfl

theorem mem_of_mem_tail {α : Type} {a : α} {l : List α} (h : a ∈ l.tail) : a ∈ l := by
  cases l with
  | nil => simp at h
  | cons x xs => exact List.mem_cons.mpr (Or.inr h)

/-- A successful `"\n---\n"` split witnesses a marker line somewhere
after the first line of the scanned text. -/
theorem nlMarkerSplit_some_marker : ∀ (cs : List Char) (p : List Char × List Char),
    nlMarkerSplit cs = some p → markerLine ∈ (splitLinesC cs).tail := by
  intro cs
  induction cs with
  | nil =>
    intro p h
    exact absurd h (by simp [nlMarkerSplit])
  | cons c cs ih =>
    intro p h
    rw [nlMarkerSplit] at h
    split at h
    · rename_i hcond
      obtain ⟨hc, hlead⟩ := hcond
      subst hc
      obtain ⟨rest, hcs⟩ := (leadsWith_iff_append _ _).mp hlead
      subst hcs
      simp [splitLinesC, consHead, markerLine]
    · cases hcs : nlMarkerSplit cs with
      | none =>
        rw [hcs] at h
        exact absurd h (by simp)
      | some p' =>
        have hmem := ih p' hcs
        by_cases hc : c = '\n'
        · subst hc
          rw [splitLinesC, if_pos rfl]
          exact mem_of_mem_tail hmem
        · rw [splitLinesC, if_neg hc]
          cases hs : splitLinesC cs with
          | nil => exact absurd hs (splitLinesC_ne_nil cs)
          | cons l0 ls =>
            rw [hs] at hmem
            simpa [consHead] using hmem

/-- C2: a document text that opens with the frontmatter marker line but
contains no closing marker line yields exactly one Error diagnostic from
the validator (the parse failure), no other diagnostics, and the fixer
leaves the stored document byte-for-byte unmodified, reporting only the
"could not parse" record. -/
theorem missing_close_marker (text : String)
    (hopen : (splitLinesC text.data).head? = some markerLine)
    (hnone : markerLine ∉ (splitLinesC text.data).tail) :
    (validate_file text).errors
        = ["Failed to parse frontmatter: no closing frontmatter marker"]
    ∧ (validate_file text).warnings = []
    ∧ (validate_file text).info = []
    ∧ (fix_file text).1 = text
    ∧ (fix_file text).2 = ["Could not parse frontmatter: no closing frontmatter marker"] := by
  rcases hL : splitLinesC text.data with _ | ⟨first, L⟩
  · rw [hL] at hopen
    exact absurd hopen (by simp)
  rw [hL] at hopen hnone
  have hfirst : first = markerLine := by
    simpa using hopen
  subst hfirst
  have hnL : markerLine ∉ L := by simpa using hnone
  have hparse : parseText text = .error "no closing frontmatter marker" := by
    unfold parseText
    rw [hL]
    simp [splitAtMarkerL_eq_none L hnL]
  have hrepair : fix_frontmatter_syntax text = (text, []) := by
    rw [ fix_frontmatter_syntax]
    by_cases hlead : leadsWith "---\n".data text.data = true
    · rw [if_pos hlead]
      have hdropsplit : nlMarkerSplit (text.data.drop 4) = none := by
        cases hms : nlMarkerSplit (text.data.drop 4) with
        | none => rfl
        | some p =>
          exfalso
          obtain ⟨rest, hrest⟩ := (leadsWith_iff_append _ _).mp hlead
          have hsl : splitLinesC text.data = markerLine :: splitLinesC rest := by
            rw [hrest]
            rw [show ("---\n".data : List Char) ++ rest = markerLine ++ '\n' :: rest
                from rfl]
            exact splitLinesC_append_newline rest (by decide)
          have hdrop : text.data.drop 4 = rest := by
            rw [hrest]
            rw [show (4 : Nat) = ("---\n".data : List Char).length from rfl]
            exact List.drop_left _ _
          have hmem := nlMarkerSplit_some_marker _ p hms
          rw [hdrop] at hmem
          have hLrest : L = splitLinesC rest := by
            rw [hL] at hsl
            exact (List.cons.injEq .. ▸ hsl).2
          exact hnL (hLrest ▸ mem_of_mem_tail hmem)
      rw [hdropsplit]
    · rw [if_neg hlead]
  have hstage : parseStage text
      = .error ["Could not parse frontmatter: no closing frontmatter marker"] := by
    unfold parseStage
    rw [hparse, hrepair]
    dsimp only
    rw [hparse]
    show Except.error
        ([] ++ ["Could not parse frontmatter: " ++ "no closing frontmatter marker"]) = _
    have hmsg2 : ("Could not parse frontmatter: " ++ "no closing frontmatter marker" : String)
        = "Could not parse frontmatter: no closing frontmatter marker" := by decide
    rw [hmsg2]
    rfl
  have hfix : fix_file text
      = (text, ["Could not parse frontmatter: no closing frontmatter marker"]) := by
    unfold fix_file
    rw [hstage]
  have hval : validate_file text
      = ⟨["Failed to parse frontmatter: no closing frontmatter marker"], [], []⟩ := by
    unfold validate_file
    rw [hparse]
    have hmsg : ("Failed to parse frontmatter: " ++ "no closing frontmatter marker" : String)
        = "Failed to parse frontmatter: no closing frontmatter marker" := by decide
    show VRes.mk ["Failed to parse frontmatter: " ++ "no closing frontmatter marker"] [] [] = _
    rw [hmsg]
  rw [hval, hfix]
  exact ⟨rfl, rfl, rfl, rfl, rfl⟩

/-- Witness for C2 at the text `"---\ntitle: hello\n"`. -/
theorem missing_close_marker_witness :
    (splitLinesC ("---\ntitle: hello\n" : String).data).head? = some markerLine
    ∧ markerLine ∉ (splitLinesC ("---\ntitle: hello\n" : String).data).tail
    ∧ (validate_file "---\ntitle: hello\n").errors.length = 1
    ∧ (fix_file "---\ntitle: hello\n").1 = "---\ntitle: hello\n" := by
  have h := missing_close_marker "---\ntitle: hello\n" (by decide) (by decide)
  refine ⟨by decide, by decide, ?_, h.2.2.2.1⟩
  rw [h.1]
  rfl

/-- Key shape the serializer relies on (a decoded mapping key). -/
def wfKeyB (k : String) : Bool := validKey k.data

/-- String values the serializer can render losslessly: newline-free. -/
def wfStrB (s : String) : Bool := !decide ('\n' ∈ s.data)

/-- Sequence entries the serializer can render losslessly inside a flow
sequence: newline-free, bracket-free and separator-free. -/
def wfElemB (e : String) : Bool :=
  !decide ('\n' ∈ e.data) && !decide ('[' ∈ e.data) && !decide (']' ∈ e.data)
    && !hasCS e.data

def wfValB : DValue → Bool
  | .str s => wfStrB s
  | .bool _ => true
  | .list l => l.all wfElemB && !decide (l = [""])

def keysUnique : List String → Bool
  | [] => true
  | k :: ks => !(decide (k ∈ ks)) && keysUnique ks

/-- Metadata the modelled serializer round-trips: unique well-formed
keys, well-formed values.  Every decoded metadata block satisfies it and
every fixer step preserves it. -/
def serialWF (m : Metadata) : Bool :=
  keysUnique (m.map Prod.fst) && m.all (fun p => wfKeyB p.1 && wfValB p.2)

theorem lookupMeta_eq_none_iff (m : Metadata) (k : String) :
    lookupMeta m k = none ↔ k ∉ m.map Prod.fst := by
  induction m with
  | nil => simp [lookupMeta]
  | cons p m ih =>
    obtain ⟨k', v'⟩ := p
    rw [lookupMeta]
    by_cases h : k' = k
    · subst h
      simp
    · rw [if_neg h]
      simp only [List.map_cons, List.mem_cons]
      rw [ih]
      constructor
      · intro hn
        rintro (rfl | hm)
        · exact h rfl
        · exact hn hm
      · intro hn hm
        exact hn (Or.inr hm)

theorem keys_setKey (m : Metadata) (k : String) (v : DValue) :
    (setKey m k v).map Prod.fst
      = if (lookupMeta m k).isSome then m.map Prod.fst else m.map Prod.fst ++ [k] := by
  induction m with
  | nil => simp [setKey, lookupMeta]
  | cons p m ih =>
    obtain ⟨k', v'⟩ := p
    rw [setKey, lookupMeta]
    by_cases h : k' = k
    · subst h
      simp
    · rw [if_neg h, if_neg h]
      simp only [List.map_cons, ih]
      by_cases hs : (lookupMeta m k).isSome
      · rw [if_pos hs, if_pos hs]
      · rw [if_neg hs, if_neg hs]
        rfl

theorem keysUnique_append_singleton (A : List String) (k : String)
    (hA : keysUnique A = true) (hk : k ∉ A) : keysUnique (A ++ [k]) = true := by
  induction A with
  | nil => simp [keysUnique]
  | cons a A ih =>
    rw [keysUnique] at hA
    rw [Bool.and_eq_true] at hA
    rw [List.cons_append, keysUnique, Bool.and_eq_true]
    constructor
    · have h1 : a ∉ A := by simpa using hA.1
      have h2 : a ≠ k := fun he => hk (he ▸ List.mem_cons_self ..)
      simp [h1, h2]
    · exact ih hA.2 (fun hm => hk (List.mem_cons.mpr (Or.inr hm)))

theorem keysUnique_setKey (m : Metadata) (k : String) (v : DValue)
    (h : keysUnique (m.map Prod.fst) = true) :
    keysUnique ((setKey m k v).map Prod.fst) = true := by
  rw [keys_setKey]
  by_cases hs : (lookupMeta m k).isSome
  · rw [if_pos hs]
    exact h
  · rw [if_neg hs]
    have hn : lookupMeta m k = none := by
      cases hlk : lookupMeta m k with
      | none => rfl
      | some v' => rw [hlk] at hs; simp at hs
    exact keysUnique_append_singleton _ _ h ((lookupMeta_eq_none_iff m k).mp hn)

theorem mem_setKey (m : Metadata) (k : String) (v : DValue) (p : String × DValue)
    (h : p ∈ setKey m k v) : p ∈ m ∨ p = (k, v) := by
  induction m with
  | nil =>
    rw [setKey] at h
    exact Or.inr (by simpa using h)
  | cons q m ih =>
    obtain ⟨k', v'⟩ := q
    rw [setKey] at h
    split at h
    · rcases List.mem_cons.mp h with rfl | hm
      · exact Or.inr rfl
      · exact Or.inl (List.mem_cons.mpr (Or.inr hm))
    · rcases List.mem_cons.mp h with rfl | hm
      · exact Or.inl (List.mem_cons_self ..)
      · rcases ih hm with hm | hm
        · exact Or.inl (List.mem_cons.mpr (Or.inr hm))
        · exact Or.inr hm

theorem serialWF_setKey (m : Metadata) (k : String) (v : DValue)
    (hm : serialWF m = true) (hk : wfKeyB k = true) (hv : wfValB v = true) :
    serialWF (setKey m k v) = true := by
  rw [serialWF, Bool.and_eq_true] at hm ⊢
  refine ⟨keysUnique_setKey m k v hm.1, ?_⟩
  rw [List.all_eq_true] at hm ⊢
  intro p hp
  rcases mem_setKey m k v p hp with hp | rfl
  · exact hm.2 p hp
  · rw [Bool.and_eq_true]
    exact ⟨hk, hv⟩

theorem validKeyChars_chars : ∀ (k : List Char), validKeyChars k = true →
    ∀ c ∈ k, isWordCh c = true ∨ c = '-'
  | [], _ => by intro c hc; simp at hc
  | a :: k, h => by
    intro c hc
    rw [validKeyChars, Bool.and_eq_true] at h
    rcases List.mem_cons.mp hc with rfl | hc
    · rcases (by simpa using h.1 : isWordCh c = true ∨ c = '-') with h1 | h1
      · exact Or.inl h1
      · exact Or.inr h1
    · exact validKeyChars_chars k h.2 c hc

theorem validKey_chars (k : List Char) (h : validKey k = true) :
    ∀ c ∈ k, isWordCh c = true ∨ c = '-' := by
  cases k with
  | nil => simp [validKey] at h
  | cons a k =>
    rw [validKey, Bool.and_eq_true] at h
    intro c hc
    rcases List.mem_cons.mp hc with rfl | hc
    · exact Or.inl h.1
    · exact validKeyChars_chars k h.2 c hc

theorem validKey_ne_colon (k : List Char) (h : validKey k = true) : ':' ∉ k := by
  intro hc
  rcases validKey_chars k h ':' hc with h1 | h1
  · exact absurd h1 (by decide)
  · exact absurd h1 (by decide)

theorem validKey_no_newline (k : List Char) (h : validKey k = true) : '\n' ∉ k := by
  intro hc
  rcases validKey_chars k h '\n' hc with h1 | h1
  · exact absurd h1 (by decide)
  · exact absurd h1 (by decide)

theorem validKey_head (k : List Char) (h : validKey k = true) :
    ∃ c t, k = c :: t ∧ isWordCh c = true := by
  cases k with
  | nil => simp [validKey] at h
  | cons a k =>
    rw [validKey, Bool.and_eq_true] at h
    exact ⟨a, k, rfl, h.1⟩

theorem breakColon_no_colon : ∀ (k rest : List Char), ':' ∉ k →
    breakColon (k ++ ':' :: rest) = some (k, rest)
  | [], rest, _ => by rw [List.nil_append, breakColon, if_pos rfl]
  | c :: k, rest, h => by
    have hc : ¬ c = ':' := fun he => h (he ▸ List.mem_cons_self ..)
    rw [List.cons_append, breakColon, if_neg hc,
      breakColon_no_colon k rest (fun hm => h (List.mem_cons.mpr (Or.inr hm)))]
    rfl

theorem breakColon_parts : ∀ (l kc rest : List Char), breakColon l = some (kc, rest) →
    l = kc ++ ':' :: rest
  | [], kc, rest, h => by simp [breakColon] at h
  | c :: cs, kc, rest, h => by
    rw [breakColon] at h
    split at h
    · rename_i hc
      simp only [Option.some.injEq, Prod.mk.injEq] at h
      obtain ⟨rfl, rfl⟩ := h
      simp [hc]
    · cases hb : breakColon cs with
      | none => rw [hb] at h; simp at h
      | some p =>
        obtain ⟨k1, r1⟩ := p
        rw [hb] at h
        simp only [Option.map_some', Option.some.injEq, Prod.mk.injEq] at h
        obtain ⟨rfl, rfl⟩ := h
        rw [List.cons_append, ← breakColon_parts cs k1 r1 hb]

theorem needsQuote_false_head (s : List Char) (h : needsQuote s = false) :
    ∃ c t, s = c :: t ∧ ¬ c = '"' ∧ ¬ c = '[' ∧ ¬ c = ' '
      ∧ ¬ s = "true".data ∧ ¬ s = "false".data := by
  cases s with
  | nil => simp [needsQuote] at h
  | cons c t =>
    rw [needsQuote] at h
    simp only [Bool.or_eq_false_iff, decide_eq_false_iff_not] at h
    exact ⟨c, t, rfl, h.1.1.1.1, h.1.1.1.2, h.1.1.2, h.1.2, h.2⟩

theorem dropSpace_encodeValue (v : DValue) :
    (encodeValue v).dropWhile (· = ' ') = encodeValue v := by
  match v with
  | .bool true => rfl
  | .bool false => rfl
  | .list l =>
    rw [encodeValue]
    rw [show ('[' :: joinSepC csSep (l.map String.data) ++ [']'])
        = '[' :: (joinSepC csSep (l.map String.data) ++ [']']) from rfl]
    rw [List.dropWhile_cons, if_neg (by decide)]
  | .str s =>
    rw [encodeValue]
    by_cases hq : needsQuote s.data
    · rw [if_pos hq]
      rw [show ('"' :: s.data ++ ['"']) = '"' :: (s.data ++ ['"']) from rfl]
      rw [List.dropWhile_cons, if_neg (by decide)]
    · rw [if_neg hq]
      obtain ⟨c, t, hd, h1, h2, h3, h4, h5⟩ :=
        needsQuote_false_head s.data (Bool.of_not_eq_true hq)
      rw [hd, List.dropWhile_cons, if_neg (by simpa using h3)]

theorem joinSepC_eq_nil : ∀ (L : List (List Char)), joinSepC csSep L = [] →
    L = [] ∨ L = [[]]
  | [], _ => Or.inl rfl
  | [e], h => Or.inr (by rw [joinSepC] at h; rw [h])
  | e :: e' :: es, h => by
    rw [joinSepC] at h
    exfalso
    have := congrArg List.length h
    simp [csSep] at this

theorem map_data_eq_single_nil (l : List String) (h : l.map String.data = [[]]) :
    l = [""] := by
  cases l with
  | cons a t =>
    obtain ⟨ad⟩ := a
    simp only [List.map_cons, List.cons.injEq, List.map_eq_nil_iff] at h
    obtain ⟨h1, h2⟩ := h
    subst h2
    have had : ad = [] := h1
    subst had
    rfl
  | nil => simp at h

theorem decodeValue_encodeValue (v : DValue) (hv : wfValB v = true) :
    decodeValue (encodeValue v) = .ok v := by
  match v with
  | .bool true => rfl
  | .bool false => rfl
  | .str s =>
    rw [encodeValue]
    by_cases hq : needsQuote s.data
    · rw [if_pos hq]
      rw [show ('"' :: s.data ++ ['"']) = '"' :: (s.data ++ ['"']) from rfl]
      rw [decodeValue, if_pos rfl, if_pos (List.getLast?_concat ..), List.dropLast_concat]
    · rw [if_neg hq]
      obtain ⟨c, t, hd, h1, h2, h3, h4, h5⟩ :=
        needsQuote_false_head s.data (Bool.of_not_eq_true hq)
      rw [hd] at h4 h5
      rw [hd, decodeValue, if_neg h1, if_neg h2, if_neg h4, if_neg h5, ← hd]
  | .list l =>
    rw [wfValB, Bool.and_eq_true] at hv
    have hel : ∀ x ∈ l, wfElemB x = true := List.all_eq_true.mp hv.1
    rw [encodeValue]
    rw [show ('[' :: joinSepC csSep (l.map String.data) ++ [']'])
        = '[' :: (joinSepC csSep (l.map String.data) ++ [']']) from rfl]
    rw [decodeValue, if_neg (by decide), if_pos rfl]
    have hdl : (joinSepC csSep (l.map String.data) ++ [']']).dropLast
        = joinSepC csSep (l.map String.data) := List.dropLast_concat ..
    have hbr : ¬ ('[' ∈ (joinSepC csSep (l.map String.data) ++ [']']).dropLast
        ∨ ']' ∈ (joinSepC csSep (l.map String.data) ++ [']']).dropLast) := by
      rw [hdl]
      rintro (hc | hc)
      · rcases chars_joinSepC csSep (l.map String.data) _ hc with hs | ⟨e, he, hce⟩
        · simp [csSep] at hs
        · obtain ⟨x, hx, rfl⟩ := List.mem_map.mp he
          have hwx := hel x hx
          rw [wfElemB] at hwx
          simp only [Bool.and_eq_true, Bool.not_eq_true', decide_eq_false_iff_not] at hwx
          exact hwx.1.1.2 hce
      · rcases chars_joinSepC csSep (l.map String.data) _ hc with hs | ⟨e, he, hce⟩
        · simp [csSep] at hs
        · obtain ⟨x, hx, rfl⟩ := List.mem_map.mp he
          have hwx := hel x hx
          rw [wfElemB] at hwx
          simp only [Bool.and_eq_true, Bool.not_eq_true', decide_eq_false_iff_not] at hwx
          exact hwx.1.2 hce
    rw [if_pos ⟨List.getLast?_concat .., hbr⟩, hdl]
    by_cases hnil : joinSepC csSep (l.map String.data) = []
    · rw [if_pos hnil]
      rcases joinSepC_eq_nil _ hnil with h | h
      · rw [List.map_eq_nil_iff.mp h]
      · exact absurd (map_data_eq_single_nil l h) (by simpa using hv.2)
    · rw [if_neg hnil]
      have hlne : l ≠ [] := by
        rintro rfl
        exact hnil (by rw [List.map_nil, joinSepC])
      have hsplit : splitCS (joinSepC csSep (l.map String.data)) = l.map String.data := by
        refine splitCS_joinSep _ (by simpa using hlne) ?_
        intro e he
        obtain ⟨x, hx, rfl⟩ := List.mem_map.mp he
        have hwx := hel x hx
        rw [wfElemB] at hwx
        simp only [Bool.and_eq_true, Bool.not_eq_true', decide_eq_false_iff_not] at hwx
        simpa using hwx.2
      rw [hsplit, List.map_map]
      have : l.map ((fun e => (⟨e⟩ : String)) ∘ String.data) = l.map id :=
        List.map_congr_left (fun x _ => rfl)
      rw [this, List.map_id]

theorem encodeValue_no_newline (v : DValue) (hv : wfValB v = true) :
    '\n' ∉ encodeValue v := by
  match v with
  | .bool true => decide
  | .bool false => decide
  | .str s =>
    have hs : '\n' ∉ s.data := by
      rw [wfValB, wfStrB] at hv
      simpa using hv
    rw [encodeValue]
    by_cases hq : needsQuote s.data
    · rw [if_pos hq]
      intro hm
      rw [show ('"' :: s.data ++ ['"']) = '"' :: (s.data ++ ['"']) from rfl] at hm
      rcases List.mem_cons.mp hm with he | hm
      · exact absurd he (by decide)
      · rcases List.mem_append.mp hm with hm | hm
        · exact hs hm
        · exact absurd (List.mem_singleton.mp hm) (by decide)
    · rw [if_neg hq]
      exact hs
  | .list l =>
    rw [wfValB, Bool.and_eq_true] at hv
    have hel := List.all_eq_true.mp hv.1
    rw [encodeValue]
    intro hm
    rw [show ('[' :: joinSepC csSep (l.map String.data) ++ [']'])
        = '[' :: (joinSepC csSep (l.map String.data) ++ [']']) from rfl] at hm
    rcases List.mem_cons.mp hm with he | hm
    · exact absurd he (by decide)
    · rcases List.mem_append.mp hm with hm | hm
      · rcases chars_joinSepC csSep _ _ hm with hc | ⟨e, he, hce⟩
        · simp [csSep] at hc
        · obtain ⟨x, hx, rfl⟩ := List.mem_map.mp he
          have hwx := hel x hx
          rw [wfElemB] at hwx
          simp only [Bool.and_eq_true, Bool.not_eq_true', decide_eq_false_iff_not] at hwx
          exact hwx.1.1.1 hce
      · exact absurd (List.mem_singleton.mp hm) (by decide)

theorem encodeFMLine_no_newline (k : String) (v : DValue)
    (hk : wfKeyB k = true) (hv : wfValB v = true) :
    '\n' ∉ encodeFMLine (k, v) := by
  intro hm
  rw [show encodeFMLine (k, v) = k.data ++ ':' :: ' ' :: encodeValue v from rfl] at hm
  rcases List.mem_append.mp hm with hm | hm
  · exact validKey_no_newline k.data hk hm
  · rcases List.mem_cons.mp hm with he | hm
    · exact absurd he (by decide)
    · rcases List.mem_cons.mp hm with he | hm
      · exact absurd he (by decide)
      · exact encodeValue_no_newline v hv hm

theorem encodeFMLine_ne_marker (k : String) (v : DValue) (hk : wfKeyB k = true) :
    encodeFMLine (k, v) ≠ markerLine := by
  obtain ⟨c, t, hd, hw⟩ := validKey_head k.data hk
  intro he
  rw [show encodeFMLine (k, v) = k.data ++ ':' :: ' ' :: encodeValue v from rfl, hd,
    List.cons_append, markerLine] at he
  injection he with h1 _
  rw [h1] at hw
  exact absurd hw (by decide)

theorem setKey_eq_append : ∀ (m : Metadata) (k : String) (v : DValue),
    lookupMeta m k = none → setKey m k v = m ++ [(k, v)]
  | [], _, _, _ => rfl
  | (k', v') :: m, k, v, h => by
    rw [lookupMeta] at h
    by_cases he : k' = k
    · rw [if_pos he] at h
      simp at h
    · rw [if_neg he] at h
      rw [setKey, if_neg he, setKey_eq_append m k v h]
      rfl

theorem keysUnique_middle : ∀ (A : List String) (k : String) (B : List String),
    keysUnique (A ++ k :: B) = true → k ∉ A
  | [], _, _, _ => by simp
  | a :: A, k, B, h => by
    rw [List.cons_append, keysUnique, Bool.and_eq_true] at h
    intro hm
    rcases List.mem_cons.mp hm with rfl | hm
    · have hin : k ∈ A ++ k :: B := List.mem_append.mpr (Or.inr (List.mem_cons_self ..))
      have h1 := h.1
      simp only [Bool.not_eq_true', decide_eq_false_iff_not] at h1
      exact h1 hin
    · exact keysUnique_middle A k B h.2 hm

theorem parseFMLine_encodeFMLine (k : String) (v : DValue)
    (hk : wfKeyB k = true) (hv : wfValB v = true) :
    parseFMLine (encodeFMLine (k, v)) = .ok (k, v) := by
  have hvk : validKey k.data = true := hk
  have hbc : breakColon (k.data ++ ':' :: ' ' :: encodeValue v)
      = some (k.data, ' ' :: encodeValue v) :=
    breakColon_no_colon _ _ (validKey_ne_colon _ hvk)
  have hred : parseFMLine (k.data ++ ':' :: ' ' :: encodeValue v)
      = if validKey k.data then
          match decodeValue ((' ' :: encodeValue v).dropWhile (· = ' ')) with
          | .error e => .error e
          | .ok w => .ok (⟨k.data⟩, w)
        else .error "invalid mapping key" := by
    rw [parseFMLine, hbc]
  have hdw : (' ' :: encodeValue v).dropWhile (· = ' ') = encodeValue v := by
    rw [List.dropWhile_cons, if_pos (by decide)]
    exact dropSpace_encodeValue v
  rw [show parseFMLine (encodeFMLine (k, v))
      = parseFMLine (k.data ++ ':' :: ' ' :: encodeValue v) from rfl,
    hred, if_pos hvk, hdw, decodeValue_encodeValue v hv]

theorem decodeFMAux_roundtrip : ∀ (m acc : Metadata),
    (∀ p ∈ m, wfKeyB p.1 = true ∧ wfValB p.2 = true) →
    keysUnique ((acc ++ m).map Prod.fst) = true →
    decodeFMAux acc (m.map encodeFMLine) = .ok (acc ++ m)
  | [], acc, _, _ => by simp [decodeFMAux]
  | (k, v) :: m, acc, hwf, hku => by
    have hp := hwf (k, v) (List.mem_cons_self ..)
    rw [List.map_cons, decodeFMAux, parseFMLine_encodeFMLine k v hp.1 hp.2]
    show decodeFMAux (setKey acc k v) (m.map encodeFMLine) = .ok (acc ++ (k, v) :: m)
    have hkn : k ∉ acc.map Prod.fst := by
      have hky : (acc ++ (k, v) :: m).map Prod.fst
          = acc.map Prod.fst ++ k :: m.map Prod.fst := by simp
      rw [hky] at hku
      exact keysUnique_middle _ _ _ hku
    rw [setKey_eq_append acc k v ((lookupMeta_eq_none_iff acc k).mpr hkn)]
    rw [decodeFMAux_roundtrip m (acc ++ [(k, v)])
      (fun p hp2 => hwf p (List.mem_cons.mpr (Or.inr hp2)))
      (by simpa using hku)]
    simp

theorem splitAtMarkerL_append : ∀ (A B : List (List Char)),
    (∀ l ∈ A, l ≠ markerLine) → splitAtMarkerL (A ++ markerLine :: B) = some (A, B)
  | [], _, _ => by rw [List.nil_append, splitAtMarkerL, if_pos rfl]
  | a :: A, B, h => by
    rw [List.cons_append, splitAtMarkerL, if_neg (h a (List.mem_cons_self ..)),
      splitAtMarkerL_append A B (fun l hl => h l (List.mem_cons.mpr (Or.inr hl)))]
    rfl

theorem serialWF_entries (m : Metadata) (hwf : serialWF m = true) :
    ∀ p ∈ m, wfKeyB p.1 = true ∧ wfValB p.2 = true := by
  rw [serialWF, Bool.and_eq_true] at hwf
  intro p hp
  have hall := List.all_eq_true.mp hwf.2 p hp
  rw [Bool.and_eq_true] at hall
  exact hall

theorem serialWF_keysUnique (m : Metadata) (hwf : serialWF m = true) :
    keysUnique (m.map Prod.fst) = true := by
  rw [serialWF, Bool.and_eq_true] at hwf
  exact hwf.1

theorem parse_serialize (m : Metadata) (b : String) (hwf : serialWF m = true) :
    parseText (serializeDoc m b) = .ok (m, b) := by
  have hents := serialWF_entries m hwf
  have hku := serialWF_keysUnique m hwf
  have hchars : ∀ l ∈ ([markerLine] ++ m.map encodeFMLine
      ++ [markerLine] ++ splitLinesC b.data), '\n' ∉ l := by
    intro l hl
    rcases List.mem_append.mp hl with hl | hl
    · rcases List.mem_append.mp hl with hl | hl
      · rcases List.mem_append.mp hl with hl | hl
        · rw [List.mem_singleton.mp hl]
          decide
        · obtain ⟨⟨k, v⟩, hp, rfl⟩ := List.mem_map.mp hl
          exact encodeFMLine_no_newline k v (hents _ hp).1 (hents _ hp).2
      · rw [List.mem_singleton.mp hl]
        decide
    · exact no_newline_mem_splitLinesC b.data l hl
  have hsplit : splitLinesC (serializeDoc m b).data
      = [markerLine] ++ m.map encodeFMLine ++ [markerLine] ++ splitLinesC b.data := by
    show splitLinesC (joinLinesC _) = _
    exact splitLinesC_joinLinesC _ (by simp) hchars
  have hform : [markerLine] ++ m.map encodeFMLine ++ [markerLine] ++ splitLinesC b.data
      = markerLine :: (m.map encodeFMLine ++ markerLine :: splitLinesC b.data) := by
    simp
  have hstep : parseText (serializeDoc m b)
      = if markerLine = markerLine then
          match splitAtMarkerL (m.map encodeFMLine ++ markerLine :: splitLinesC b.data) with
          | none => .error "no closing frontmatter marker"
          | some (fmLines, bodyLines) =>
            match decodeFMAux [] fmLines with
            | .error e => .error e
            | .ok mm => .ok (mm, ⟨joinLinesC bodyLines⟩)
        else .ok ([], serializeDoc m b) := by
    rw [parseText, hsplit, hform]
  rw [hstep, if_pos rfl,
    splitAtMarkerL_append (m.map encodeFMLine) (splitLinesC b.data)
      (by
        intro l hl
        obtain ⟨⟨k, v⟩, hp, rfl⟩ := List.mem_map.mp hl
        exact encodeFMLine_ne_marker k v (hents _ hp).1)]
  show (match decodeFMAux [] (m.map encodeFMLine) with
        | .error e => (.error e : Except String (Metadata × String))
        | .ok mm => .ok (mm, ⟨joinLinesC (splitLinesC b.data)⟩)) = .ok (m, b)
  rw [decodeFMAux_roundtrip m [] hents (by simpa using hku), joinLinesC_splitLinesC]
  rfl

theorem splitCS_ne_single_nil : ∀ (cs : List Char), cs ≠ [] → splitCS cs ≠ [[]]
  | [], h => absurd rfl h
  | [c], _ => by
    rw [splitCS]
    intro he
    injection he with h1 _
    exact absurd h1 (by simp)
  | c :: c' :: cs, _ => by
    rw [splitCS]
    split
    · intro he
      injection he with _ h2
      exact splitCS_ne_nil cs h2
    · cases hs : splitCS (c' :: cs) with
      | nil => exact absurd hs (splitCS_ne_nil _)
      | cons l ls =>
        rw [consHead]
        intro he
        injection he with h1 _
        exact absurd h1 (by simp)

theorem decodeValue_wf (w : List Char) (v : DValue) (h : decodeValue w = .ok v)
    (hnl : ∀ c ∈ w, ¬ c = '\n') : wfValB v = true := by
  match w with
  | [] => simp [decodeValue] at h
  | c :: rest =>
    rw [decodeValue] at h
    by_cases h1 : c = '"'
    · rw [if_pos h1] at h
      split at h
      · injection h with h2
        subst h2
        show (!decide ('\n' ∈ rest.dropLast)) = true
        simp only [Bool.not_eq_true', decide_eq_false_iff_not]
        intro hm
        exact hnl '\n'
          (List.mem_cons.mpr (Or.inr ((List.dropLast_sublist _).subset hm))) rfl
      · simp at h
    · rw [if_neg h1] at h
      by_cases h2 : c = '['
      · rw [if_pos h2] at h
        split at h
        · rename_i hguard
          split at h
          · injection h with h3
            subst h3
            rfl
          · rename_i hne
            injection h with h3
            subst h3
            rw [wfValB, Bool.and_eq_true]
            constructor
            · rw [List.all_eq_true]
              intro x hx
              obtain ⟨e, he, rfl⟩ := List.mem_map.mp hx
              have hsub : ∀ ch ∈ e, ch ∈ rest.dropLast := chars_mem_splitCS _ e he
              have hcs : hasCS e = false := hasCS_mem_splitCS _ e he
              rw [wfElemB]
              show ((!decide ('\n' ∈ e) && !decide ('[' ∈ e) && !decide (']' ∈ e))
                && !hasCS e) = true
              simp only [Bool.and_eq_true, Bool.not_eq_true', decide_eq_false_iff_not]
              refine ⟨⟨?_, ?_⟩, by simp [hcs]⟩
              constructor
              · intro hm
                exact hnl '\n'
                  (List.mem_cons.mpr (Or.inr ((List.dropLast_sublist _).subset (hsub _ hm)))) rfl
              · intro hm
                exact hguard.2 (Or.inl (hsub _ hm))
              · intro hm
                exact hguard.2 (Or.inr (hsub _ hm))
            · simp only [Bool.not_eq_true', decide_eq_false_iff_not]
              intro heq
              have hsingle : splitCS rest.dropLast = [[]] := by
                cases hs : splitCS rest.dropLast with
                | nil => exact absurd hs (splitCS_ne_nil _)
                | cons e es =>
                  rw [hs] at heq
                  simp only [List.map_cons, List.cons.injEq, List.map_eq_nil_iff] at heq
                  obtain ⟨he1, he2⟩ := heq
                  have he3 : e = [] := congrArg String.data he1
                  rw [he3, he2]
              exact splitCS_ne_single_nil _ hne hsingle
        · simp at h
      · rw [if_neg h2] at h
        by_cases h3 : c :: rest = "true".data
        · rw [if_pos h3] at h
          injection h with h4
          subst h4
          rfl
        · rw [if_neg h3] at h
          by_cases h4 : c :: rest = "false".data
          · rw [if_pos h4] at h
            injection h with h5
            subst h5
            rfl
          · rw [if_neg h4] at h
            injection h with h5
            subst h5
            show (!decide ('\n' ∈ c :: rest)) = true
            simp only [Bool.not_eq_true', decide_eq_false_iff_not]
            intro hm
            exact hnl '\n' hm rfl

theorem parseFMLine_wf (l : List Char) (k : String) (v : DValue)
    (h : parseFMLine l = .ok (k, v)) (hnl : ∀ c ∈ l, ¬ c = '\n') :
    wfKeyB k = true ∧ wfValB v = true := by
  rw [parseFMLine] at h
  cases hb : breakColon l with
  | none =>
    rw [hb] at h
    simp at h
  | some p =>
    obtain ⟨kc, rest⟩ := p
    rw [hb] at h
    by_cases hvk : validKey kc
    · have h2 : (match decodeValue (rest.dropWhile (· = ' ')) with
          | .error e => (.error e : Except String (String × DValue))
          | .ok w => .ok (⟨kc⟩, w)) = .ok (k, v) := by
        rw [← h]
        show _ = if validKey kc then _ else _
        rw [if_pos hvk]
      cases hd : decodeValue (rest.dropWhile (· = ' ')) with
      | error e =>
        rw [hd] at h2
        simp at h2
      | ok w =>
        rw [hd] at h2
        have h3 : ((⟨kc⟩ : String), w) = (k, v) := by
          injection h2
        injection h3 with hk3 hv3
        subst hk3
        subst hv3
        constructor
        · exact hvk
        · refine decodeValue_wf _ _ hd ?_
          intro c hc
          have hc2 : c ∈ rest := (List.dropWhile_sublist _).subset hc
          have hc3 : c ∈ l := by
            rw [breakColon_parts l kc rest hb]
            exact List.mem_append.mpr (Or.inr (List.mem_cons.mpr (Or.inr hc2)))
          exact hnl c hc3
    · have h2 : (Except.error "invalid mapping key"
          : Except String (String × DValue)) = .ok (k, v) := by
        rw [← h]
        show _ = if validKey kc then _ else _
        rw [if_neg hvk]
      simp at h2

theorem decodeFMAux_wf : ∀ (ls : List (List Char)) (acc m : Metadata),
    decodeFMAux acc ls = .ok m → (∀ l ∈ ls, ∀ c ∈ l, ¬ c = '\n') →
    serialWF acc = true → serialWF m = true
  | [], acc, m, h, _, hwf => by
    rw [decodeFMAux] at h
    injection h with h1
    exact h1 ▸ hwf
  | l :: ls, acc, m, h, hnl, hwf => by
    rw [decodeFMAux] at h
    cases hp : parseFMLine l with
    | error e =>
      rw [hp] at h
      have h2 : (Except.error e : Except String Metadata) = .ok m := h
      simp at h2
    | ok p =>
      obtain ⟨k, v⟩ := p
      rw [hp] at h
      have hkv := parseFMLine_wf l k v hp (hnl l (List.mem_cons_self ..))
      exact decodeFMAux_wf ls (setKey acc k v) m h
        (fun l2 hl2 => hnl l2 (List.mem_cons.mpr (Or.inr hl2)))
        (serialWF_setKey acc k v hwf hkv.1 hkv.2)

theorem splitAtMarkerL_mem : ∀ (L A B : List (List Char)),
    splitAtMarkerL L = some (A, B) → ∀ l ∈ A, l ∈ L
  | [], A, B, h => by simp [splitAtMarkerL] at h
  | x :: L, A, B, h => by
    rw [splitAtMarkerL] at h
    split at h
    · simp only [Option.some.injEq, Prod.mk.injEq] at h
      obtain ⟨rfl, rfl⟩ := h
      intro l hl
      simp at hl
    · cases hs : splitAtMarkerL L with
      | none =>
        rw [hs] at h
        simp at h
      | some p =>
        obtain ⟨A1, B1⟩ := p
        rw [hs] at h
        simp only [Option.map_some', Option.some.injEq, Prod.mk.injEq] at h
        obtain ⟨rfl, rfl⟩ := h
        intro l hl
        rcases List.mem_cons.mp hl with rfl | hl
        · exact List.mem_cons_self ..
        · exact List.mem_cons.mpr (Or.inr (splitAtMarkerL_mem L A1 B1 hs l hl))

theorem parseText_wf (t : String) (m : Metadata) (b : String)
    (h : parseText t = .ok (m, b)) : serialWF m = true := by
  rw [parseText] at h
  cases hs : splitLinesC t.data with
  | nil =>
    rw [hs] at h
    have h2 : (Except.ok ([], t) : Except String (Metadata × String)) = .ok (m, b) := h
    injection h2 with h3
    injection h3 with h4 _
    rw [← h4]
    rfl
  | cons first rest =>
    rw [hs] at h
    by_cases hm : first = markerLine
    · have h2 : (match splitAtMarkerL rest with
          | none => (.error "no closing frontmatter marker"
              : Except String (Metadata × String))
          | some (fmLines, bodyLines) =>
            match decodeFMAux [] fmLines with
            | .error e => .error e
            | .ok mm => .ok (mm, (⟨joinLinesC bodyLines⟩ : String))) = .ok (m, b) := by
        rw [← h]
        show _ = if first = markerLine then _ else _
        rw [if_pos hm]
      cases hsp : splitAtMarkerL rest with
      | none =>
        rw [hsp] at h2
        simp at h2
      | some p =>
        obtain ⟨A, B⟩ := p
        rw [hsp] at h2
        have h2b : (match decodeFMAux [] A with
            | .error e => (.error e : Except String (Metadata × String))
            | .ok mm => .ok (mm, (⟨joinLinesC B⟩ : String))) = .ok (m, b) := h2
        cases hdm : decodeFMAux [] A with
        | error e =>
          rw [hdm] at h2b
          have h3 : (Except.error e : Except String (Metadata × String)) = .ok (m, b) := h2b
          simp at h3
        | ok mm =>
          rw [hdm] at h2b
          have h3 : (Except.ok (mm, (⟨joinLinesC B⟩ : String))
              : Except String (Metadata × String)) = .ok (m, b) := h2b
          injection h3 with h4
          injection h4 with h5 _
          rw [← h5]
          refine decodeFMAux_wf A [] mm hdm ?_ rfl
          intro l hl c hc hce
          have hl2 : l ∈ rest := splitAtMarkerL_mem rest A B hsp l hl
          have hl3 : l ∈ splitLinesC t.data := hs ▸ List.mem_cons.mpr (Or.inr hl2)
          exact no_newline_mem_splitLinesC t.data l hl3 (hce ▸ hc)
    · have h2 : (Except.ok (([] : Metadata), t)
          : Except String (Metadata × String)) = .ok (m, b) := by
        rw [← h]
        show _ = if first = markerLine then _ else _
        rw [if_neg hm]
      injection h2 with h3
      injection h3 with h4 _
      rw [← h4]
      rfl

theorem lookupMeta_mem : ∀ (m : Metadata) (k : String) (v : DValue),
    lookupMeta m k = some v → (k, v) ∈ m
  | [], _, _, h => by simp [lookupMeta] at h
  | (k', v') :: m, k, v, h => by
    rw [lookupMeta] at h
    by_cases he : k' = k
    · rw [if_pos he] at h
      injection h with h1
      subst he
      subst h1
      exact List.mem_cons_self ..
    · rw [if_neg he] at h
      exact List.mem_cons.mpr (Or.inr (lookupMeta_mem m k v h))

theorem serialWF_lookup (m : Metadata) (k : String) (v : DValue)
    (hm : serialWF m = true) (h : lookupMeta m k = some v) : wfValB v = true :=
  (serialWF_entries m hm (k, v) (lookupMeta_mem m k v h)).2

theorem wfValB_strJoinSP (l : List String) (hl : l.all wfElemB = true) :
    wfValB (.str (strJoinSP l)) = true := by
  show (!decide ('\n' ∈ (strJoinSP l).data)) = true
  simp only [Bool.not_eq_true', decide_eq_false_iff_not]
  intro hm
  have hm2 : '\n' ∈ joinSepC [' '] (l.map String.data) := hm
  rcases chars_joinSepC [' '] _ _ hm2 with hc | ⟨e, he, hce⟩
  · exact absurd (List.mem_singleton.mp hc) (by decide)
  · obtain ⟨x, hx, rfl⟩ := List.mem_map.mp he
    have hwx := List.all_eq_true.mp hl x hx
    rw [wfElemB] at hwx
    simp only [Bool.and_eq_true, Bool.not_eq_true', decide_eq_false_iff_not] at hwx
    exact hwx.1.1.1 hce

theorem wfValB_argHint (n : Nat) : wfValB (.str ⟨argHintChars n⟩) = true := by
  show (!decide ('\n' ∈ argHintChars n)) = true
  simp only [Bool.not_eq_true', decide_eq_false_iff_not]
  intro hm
  rw [argHintChars] at hm
  rcases chars_joinSepC [' '] _ _ hm with hc | ⟨e, he, hce⟩
  · exact absurd (List.mem_singleton.mp hc) (by decide)
  · obtain ⟨i, hi, rfl⟩ := List.mem_map.mp he
    rcases List.mem_cons.mp hce with he2 | hce
    · exact absurd he2 (by decide)
    rcases List.mem_cons.mp hce with he2 | hce
    · exact absurd he2 (by decide)
    rcases List.mem_cons.mp hce with he2 | hce
    · exact absurd he2 (by decide)
    rcases List.mem_cons.mp hce with he2 | hce
    · exact absurd he2 (by decide)
    rcases List.mem_append.mp hce with hce | hce
    · exact absurd (natToChars_digits i '\n' hce) (by decide)
    · exact absurd (List.mem_singleton.mp hce) (by decide)

theorem fixDescStep_cases (m : Metadata) :
    (fixDescStep m).1 = m ∨
    ∃ l, lookupMeta m "description" = some (.list l) ∧
      (fixDescStep m).1 = setKey m "description" (.str (strJoinSP l)) := by
  rw [fixDescStep]
  cases hd : lookupMeta m "description" with
  | none => exact Or.inl rfl
  | some v =>
    cases v with
    | str s => exact Or.inl rfl
    | bool b2 => exact Or.inl rfl
    | list l => exact Or.inr ⟨l, rfl, rfl⟩

theorem fixHintTypeStep_cases (m : Metadata) :
    (fixHintTypeStep m).1 = m ∨
    ∃ l, lookupMeta m "argument-hint" = some (.list l) ∧
      (fixHintTypeStep m).1 = setKey m "argument-hint" (.str (strJoinSP l)) := by
  rw [fixHintTypeStep]
  cases hd : lookupMeta m "argument-hint" with
  | none => exact Or.inl rfl
  | some v =>
    cases v with
    | str s => exact Or.inl rfl
    | bool b2 => exact Or.inl rfl
    | list l => exact Or.inr ⟨l, rfl, rfl⟩

theorem addHintStep_cases (m : Metadata) (b : List Char) :
    (addHintStep m b).1 = m ∨
    (addHintStep m b).1 = setKey m "argument-hint" (.str "[args]") ∨
    ∃ n, (addHintStep m b).1 = setKey m "argument-hint" (.str ⟨argHintChars n⟩) := by
  simp only [addHintStep]
  split
  · split
    · exact Or.inr (Or.inl rfl)
    · exact Or.inr (Or.inr ⟨_, rfl⟩)
  · exact Or.inl rfl

theorem serialWF_addHintStep (m : Metadata) (b : List Char) (hm : serialWF m = true) :
    serialWF (addHintStep m b).1 = true := by
  rcases addHintStep_cases m b with h | h | ⟨n, h⟩
  · rw [h]
    exact hm
  · rw [h]
    exact serialWF_setKey m _ _ hm (by decide) (by decide)
  · rw [h]
    exact serialWF_setKey m _ _ hm (by decide) (wfValB_argHint n)

theorem fix_metadata_fst (m : Metadata) (b : String) :
    (fix_metadata m b).1 = (addHintStep (fixHintTypeStep (fixDescStep m).1).1 b.data).1 := rfl

theorem serialWF_fixDescStep (m : Metadata) (hm : serialWF m = true) :
    serialWF (fixDescStep m).1 = true := by
  rcases fixDescStep_cases m with h | ⟨l, hlk, h⟩
  · rw [h]
    exact hm
  · rw [h]
    have hv := serialWF_lookup m _ _ hm hlk
    rw [wfValB, Bool.and_eq_true] at hv
    exact serialWF_setKey m _ _ hm (by decide) (wfValB_strJoinSP l hv.1)

theorem serialWF_fixHintTypeStep (m : Metadata) (hm : serialWF m = true) :
    serialWF (fixHintTypeStep m).1 = true := by
  rcases fixHintTypeStep_cases m with h | ⟨l, hlk, h⟩
  · rw [h]
    exact hm
  · rw [h]
    have hv := serialWF_lookup m _ _ hm hlk
    rw [wfValB, Bool.and_eq_true] at hv
    exact serialWF_setKey m _ _ hm (by decide) (wfValB_strJoinSP l hv.1)

theorem serialWF_fix_metadata (m : Metadata) (b : String) (hm : serialWF m = true) :
    serialWF (fix_metadata m b).1 = true := by
  rw [fix_metadata_fst]
  exact serialWF_addHintStep _ _ (serialWF_fixHintTypeStep _ (serialWF_fixDescStep m hm))

theorem serialWF_add_bash (m : Metadata) (hm : serialWF m = true) :
    serialWF (add_bash_to_allowed_tools m) = true := by
  rw [add_bash_to_allowed_tools]
  cases hd : lookupMeta m "allowed-tools" with
  | none => exact serialWF_setKey m _ _ hm (by decide) (by decide)
  | some v =>
    cases v with
    | bool b =>
      cases b
      · exact serialWF_setKey m _ _ hm (by decide) (by decide)
      · exact serialWF_setKey m _ _ hm (by decide) (by decide)
    | str s =>
      refine serialWF_setKey m _ _ hm (by decide) ?_
      have hv := serialWF_lookup m _ _ hm hd
      show (!decide ('\n' ∈ (s ++ ", Bash").data)) = true
      simp only [Bool.not_eq_true', decide_eq_false_iff_not]
      intro hmem
      rw [String.data_append] at hmem
      rcases List.mem_append.mp hmem with hmem | hmem
      · have hs : (!decide ('\n' ∈ s.data)) = true := hv
        simp only [Bool.not_eq_true', decide_eq_false_iff_not] at hs
        exact hs hmem
      · exact absurd hmem (by decide)
    | list l =>
      refine serialWF_setKey m _ _ hm (by decide) ?_
      have hv := serialWF_lookup m _ _ hm hd
      rw [wfValB, Bool.and_eq_true] at hv
      rw [wfValB, Bool.and_eq_true]
      constructor
      · rw [List.all_append, hv.1]
        decide
      · simp only [Bool.not_eq_true', decide_eq_false_iff_not]
        intro he
        cases l with
        | nil =>
          rw [List.nil_append] at he
          injection he with h1 _
          exact absurd (congrArg String.data h1) (by decide)
        | cons a t => simp at he

theorem serialWF_fixParsed (m : Metadata) (b : String) (m2 : Metadata) (f : List String)
    (hm : serialWF m = true) (h : fixParsed m b = (some m2, f)) : serialWF m2 = true := by
  rw [fixParsed] at h
  cases hc : check_bash_permissions m b with
  | error e =>
    rw [hc] at h
    have h2 : (none : Option Metadata) = some m2 := congrArg Prod.fst h
    simp at h2
  | ok bf =>
    rw [hc] at h
    have h2 : some (if bf.isEmpty then (fix_metadata m b).1
        else add_bash_to_allowed_tools (fix_metadata m b).1) = some m2 :=
      congrArg Prod.fst h
    injection h2 with h3
    rw [← h3]
    by_cases hbf : bf.isEmpty
    · rw [if_pos hbf]
      exact serialWF_fix_metadata m b hm
    · rw [if_neg hbf]
      exact serialWF_add_bash _ (serialWF_fix_metadata m b hm)

theorem fixDescStep_no_list (m : Metadata) (l : List String) :
    lookupMeta (fixDescStep m).1 "description" ≠ some (.list l) := by
  rw [fixDescStep]
  cases hd : lookupMeta m "description" with
  | none => simp [hd]
  | some v =>
    cases v with
    | str s => simp [hd]
    | bool b2 => simp [hd]
    | list l0 =>
      show lookupMeta (setKey m "description" (.str (strJoinSP l0))) "description"
        ≠ some (.list l)
      rw [lookupMeta_setKey_self]
      simp

theorem fixHintTypeStep_no_list (m : Metadata) (l : List String) :
    lookupMeta (fixHintTypeStep m).1 "argument-hint" ≠ some (.list l) := by
  rw [fixHintTypeStep]
  cases hd : lookupMeta m "argument-hint" with
  | none => simp [hd]
  | some v =>
    cases v with
    | str s => simp [hd]
    | bool b2 => simp [hd]
    | list l0 =>
      show lookupMeta (setKey m "argument-hint" (.str (strJoinSP l0))) "argument-hint"
        ≠ some (.list l)
      rw [lookupMeta_setKey_self]
      simp

theorem fixDescStep_idem_of_no_list (m : Metadata)
    (h : ∀ l, lookupMeta m "description" ≠ some (.list l)) :
    fixDescStep m = (m, []) := by
  rw [fixDescStep]
  cases hd : lookupMeta m "description" with
  | none => rfl
  | some v =>
    cases v with
    | str s => rfl
    | bool b2 => rfl
    | list l => exact absurd hd (h l)

theorem fixHintTypeStep_idem_of_no_list (m : Metadata)
    (h : ∀ l, lookupMeta m "argument-hint" ≠ some (.list l)) :
    fixHintTypeStep m = (m, []) := by
  rw [fixHintTypeStep]
  cases hd : lookupMeta m "argument-hint" with
  | none => rfl
  | some v =>
    cases v with
    | str s => rfl
    | bool b2 => rfl
    | list l => exact absurd hd (h l)

theorem add_bash_lookup_ne (m : Metadata) (k : String) (h : k ≠ "allowed-tools") :
    lookupMeta (add_bash_to_allowed_tools m) k = lookupMeta m k := by
  rw [add_bash_to_allowed_tools]
  cases lookupMeta m "allowed-tools" with
  | none => exact lookupMeta_setKey_ne _ _ _ _ h
  | some v =>
    cases v with
    | str s => exact lookupMeta_setKey_ne _ _ _ _ h
    | bool b2 => exact lookupMeta_setKey_ne _ _ _ _ h
    | list l => exact lookupMeta_setKey_ne _ _ _ _ h

theorem fix_metadata_hint_no_list (m : Metadata) (b : String) (l : List String) :
    lookupMeta (fix_metadata m b).1 "argument-hint" ≠ some (.list l) := by
  rw [fix_metadata_fst]
  rcases addHintStep_cases (fixHintTypeStep (fixDescStep m).1).1 b.data with h | h | ⟨n, h⟩
  · rw [h]
    exact fixHintTypeStep_no_list _ l
  · rw [h, lookupMeta_setKey_self]
    simp
  · rw [h, lookupMeta_setKey_self]
    simp

theorem fix_metadata_desc_no_list (m : Metadata) (b : String) (l : List String) :
    lookupMeta (fix_metadata m b).1 "description" ≠ some (.list l) := by
  rw [fix_metadata_fst, addHintStep_lookup_ne _ _ _ (by decide),
    fixHintTypeStep_lookup_ne _ _ (by decide)]
  exact fixDescStep_no_list m l

theorem addHintStep_hint_isSome (m : Metadata) (b : List Char)
    (hargs : (seqIn "$ARGUMENTS".data b || !(posArgRuns b).isEmpty) = true) :
    (lookupMeta (addHintStep m b).1 "argument-hint").isSome = true := by
  cases hl : lookupMeta m "argument-hint" with
  | some v => simp [addHintStep, hl]
  | none =>
    by_cases ha : seqIn "$ARGUMENTS".data b = true
    · simp [addHintStep, hl, ha, lookupMeta_setKey_self]
    · have hp : (posArgRuns b).isEmpty = false := by
        rcases (by simpa using hargs
          : seqIn "$ARGUMENTS".data b = true ∨ (posArgRuns b).isEmpty = false) with h1 | h1
        · exact absurd h1 ha
        · exact h1
      simp [addHintStep, hl, ha, hp, lookupMeta_setKey_self]

theorem addHintStep_noop (m : Metadata) (b : List Char)
    (h : ((seqIn "$ARGUMENTS".data b || !(posArgRuns b).isEmpty)
        && (lookupMeta m "argument-hint").isNone) = false) :
    addHintStep m b = (m, []) := by
  simp only [addHintStep, h]
  rfl

theorem fix_metadata_idem (m2 : Metadata) (b : String)
    (hdesc : ∀ l, lookupMeta m2 "description" ≠ some (.list l))
    (hhint : ∀ l, lookupMeta m2 "argument-hint" ≠ some (.list l))
    (hhs : (seqIn "$ARGUMENTS".data b.data || !(posArgRuns b.data).isEmpty) = true →
      (lookupMeta m2 "argument-hint").isSome = true) :
    fix_metadata m2 b = (m2, []) := by
  have h1 : fixDescStep m2 = (m2, []) := fixDescStep_idem_of_no_list m2 hdesc
  have h2 : fixHintTypeStep m2 = (m2, []) := fixHintTypeStep_idem_of_no_list m2 hhint
  have h3 : addHintStep m2 b.data = (m2, []) := by
    refine addHintStep_noop m2 b.data ?_
    by_cases ha : (seqIn "$ARGUMENTS".data b.data || !(posArgRuns b.data).isEmpty) = true
    · have hsome := hhs ha
      have hn : (lookupMeta m2 "argument-hint").isNone = false := by
        cases ho : lookupMeta m2 "argument-hint" with
        | none => rw [ho] at hsome; simp at hsome
        | some v => rfl
      simp [ha, hn]
    · have ha2 : (seqIn "$ARGUMENTS".data b.data || !(posArgRuns b.data).isEmpty) = false :=
        Bool.eq_false_iff.mpr ha
      simp [ha2]
  simp [fix_metadata, h1, h2, h3]

theorem fixParsed_some (m : Metadata) (b : String) (m2 : Metadata) (f : List String)
    (h : fixParsed m b = (some m2, f)) :
    ∃ bf, check_bash_permissions m b = .ok bf
      ∧ m2 = (if bf.isEmpty then (fix_metadata m b).1
          else add_bash_to_allowed_tools (fix_metadata m b).1)
      ∧ f = (fix_metadata m b).2 ++ bf := by
  rw [fixParsed] at h
  cases hc : check_bash_permissions m b with
  | error e =>
    rw [hc] at h
    have h2 : (none : Option Metadata) = some m2 := congrArg Prod.fst h
    simp at h2
  | ok bf =>
    rw [hc] at h
    have h1 : some (if bf.isEmpty then (fix_metadata m b).1
        else add_bash_to_allowed_tools (fix_metadata m b).1) = some m2 := congrArg Prod.fst h
    have h2 : (fix_metadata m b).2 ++ bf = f := congrArg Prod.snd h
    injection h1 with h3
    exact ⟨bf, rfl, h3.symm, h2.symm⟩

theorem check_bash_idem (m : Metadata) (b : String) (m2 : Metadata) (f : List String)
    (h : fixParsed m b = (some m2, f)) :
    check_bash_permissions m2 b = .ok [] := by
  obtain ⟨bf, hc, hm2, _⟩ := fixParsed_some m b m2 f h
  by_cases hbash : (bashCmds b.data).isEmpty
  · rw [check_bash_permissions, if_pos hbash]
  · rw [check_bash_permissions, if_neg hbash] at hc
    rw [check_bash_permissions, if_neg hbash]
    cases hl : lookupMeta m "allowed-tools" with
    | none =>
      rw [hl] at hc
      have hc2 : (Except.ok ["Bash commands found but no allowed-tools defined"]
          : Except String (List String)) = .ok bf := hc
      injection hc2 with h4
      have hbfe : bf.isEmpty = false := by rw [← h4]; rfl
      have hm2e : m2 = add_bash_to_allowed_tools (fix_metadata m b).1 := by
        rw [hm2, if_neg (by simp [hbfe])]
      have hl1 : lookupMeta (fix_metadata m b).1 "allowed-tools" = none := by
        rw [fix_metadata_lookup_allowed_tools]
        exact hl
      have hm2l : lookupMeta m2 "allowed-tools" = some (.str "Bash") := by
        rw [hm2e]
        exact add_bash_lookup_none _ hl1
      rw [hm2l]
      show (if seqIn "Bash".data ("Bash" : String).data then Except.ok ([] : List String)
        else Except.ok ["Bash commands found but Bash not in allowed-tools"]) = Except.ok []
      rw [if_pos (by decide)]
    | some v =>
      cases v with
      | bool b2 =>
        rw [hl] at hc
        have hc2 : (Except.error "argument of type 'bool' is not iterable"
            : Except String (List String)) = .ok bf := hc
        simp at hc2
      | str s =>
        rw [hl] at hc
        have hc2 : (if seqIn "Bash".data s.data then Except.ok ([] : List String)
            else Except.ok ["Bash commands found but Bash not in allowed-tools"])
            = .ok bf := hc
        have hl1 : lookupMeta (fix_metadata m b).1 "allowed-tools" = some (.str s) := by
          rw [fix_metadata_lookup_allowed_tools]
          exact hl
        by_cases hs : seqIn "Bash".data s.data = true
        · rw [if_pos hs] at hc2
          injection hc2 with h4
          have hbfe : bf.isEmpty = true := by rw [← h4]; rfl
          have hm2e : m2 = (fix_metadata m b).1 := by rw [hm2, if_pos hbfe]
          have hm2l : lookupMeta m2 "allowed-tools" = some (.str s) := by
            rw [hm2e]
            exact hl1
          rw [hm2l]
          show (if seqIn "Bash".data s.data then Except.ok ([] : List String)
            else Except.ok ["Bash commands found but Bash not in allowed-tools"])
            = Except.ok []
          rw [if_pos hs]
        · rw [if_neg hs] at hc2
          injection hc2 with h4
          have hbfe : bf.isEmpty = false := by rw [← h4]; rfl
          have hm2e : m2 = add_bash_to_allowed_tools (fix_metadata m b).1 := by
            rw [hm2, if_neg (by simp [hbfe])]
          have hm2l : lookupMeta m2 "allowed-tools" = some (.str (s ++ ", Bash")) := by
            rw [hm2e]
            exact add_bash_lookup_str _ _ hl1
          rw [hm2l]
          show (if seqIn "Bash".data (s ++ ", Bash").data then Except.ok ([] : List String)
            else Except.ok ["Bash commands found but Bash not in allowed-tools"])
            = Except.ok []
          have hsb : seqIn "Bash".data (s ++ ", Bash").data = true := by
            rw [String.data_append]
            exact seqIn_append_right _ (by decide)
          rw [if_pos hsb]
      | list l =>
        rw [hl] at hc
        have hc2 : (if seqIn "Bash".data (strJoinCS l).data then Except.ok ([] : List String)
            else Except.ok ["Bash commands found but Bash not in allowed-tools"])
            = .ok bf := hc
        have hl1 : lookupMeta (fix_metadata m b).1 "allowed-tools" = some (.list l) := by
          rw [fix_metadata_lookup_allowed_tools]
          exact hl
        by_cases hs : seqIn "Bash".data (strJoinCS l).data = true
        · rw [if_pos hs] at hc2
          injection hc2 with h4
          have hbfe : bf.isEmpty = true := by rw [← h4]; rfl
          have hm2e : m2 = (fix_metadata m b).1 := by rw [hm2, if_pos hbfe]
          have hm2l : lookupMeta m2 "allowed-tools" = some (.list l) := by
            rw [hm2e]
            exact hl1
          rw [hm2l]
          show (if seqIn "Bash".data (strJoinCS l).data then Except.ok ([] : List String)
            else Except.ok ["Bash commands found but Bash not in allowed-tools"])
            = Except.ok []
          rw [if_pos hs]
        · rw [if_neg hs] at hc2
          injection hc2 with h4
          have hbfe : bf.isEmpty = false := by rw [← h4]; rfl
          have hm2e : m2 = add_bash_to_allowed_tools (fix_metadata m b).1 := by
            rw [hm2, if_neg (by simp [hbfe])]
          have hm2l : lookupMeta m2 "allowed-tools" = some (.list (l ++ ["Bash"])) := by
            rw [hm2e]
            exact add_bash_lookup_list _ _ hl1
          rw [hm2l]
          show (if seqIn "Bash".data (strJoinCS (l ++ ["Bash"])).data
              then Except.ok ([] : List String)
            else Except.ok ["Bash commands found but Bash not in allowed-tools"])
            = Except.ok []
          have hsb : seqIn "Bash".data (strJoinCS (l ++ ["Bash"])).data = true :=
            (seqIn_bash_strJoinCS _).mpr ⟨"Bash", by simp, by decide⟩
          rw [if_pos hsb]

theorem fixParsed_idem (m : Metadata) (b : String) (m2 : Metadata) (f : List String)
    (h : fixParsed m b = (some m2, f)) : fixParsed m2 b = (some m2, []) := by
  obtain ⟨bf, hc, hm2, _⟩ := fixParsed_some m b m2 f h
  have hmeta : fix_metadata m2 b = (m2, []) := by
    refine fix_metadata_idem m2 b ?_ ?_ ?_
    · intro l
      by_cases hbf : bf.isEmpty = true
      · rw [hm2, if_pos hbf]
        exact fix_metadata_desc_no_list m b l
      · rw [hm2, if_neg hbf, add_bash_lookup_ne _ _ (by decide)]
        exact fix_metadata_desc_no_list m b l
    · intro l
      by_cases hbf : bf.isEmpty = true
      · rw [hm2, if_pos hbf]
        exact fix_metadata_hint_no_list m b l
      · rw [hm2, if_neg hbf, add_bash_lookup_ne _ _ (by decide)]
        exact fix_metadata_hint_no_list m b l
    · intro hargs
      have hbase : (lookupMeta (fix_metadata m b).1 "argument-hint").isSome = true := by
        rw [fix_metadata_fst]
        exact addHintStep_hint_isSome _ _ hargs
      by_cases hbf : bf.isEmpty = true
      · rw [hm2, if_pos hbf]
        exact hbase
      · rw [hm2, if_neg hbf, add_bash_lookup_ne _ _ (by decide)]
        exact hbase
  have hcheck : check_bash_permissions m2 b = .ok [] := check_bash_idem m b m2 f h
  rw [fixParsed, hcheck]
  simp [hmeta]

theorem parseStage_ok_parse (text : String) (m : Metadata) (b : String) (pre : List String)
    (h : parseStage text = .ok (m, b, pre)) :
    parseText text = .ok (m, b) ∨ parseText ( fix_frontmatter_syntax text).1 = .ok (m, b) := by
  rw [parseStage] at h
  split at h
  · rename_i m1 b1 heq
    injection h with h3
    injection h3 with h4 h5
    injection h5 with h6 h7
    exact Or.inl (by rw [heq, h4, h6])
  · rename_i e1 heq
    have h2 : (match parseText ( fix_frontmatter_syntax text).1 with
        | Except.ok (m, b) => (Except.ok (m, b, ( fix_frontmatter_syntax text).2)
            : Except (List String) (Metadata × String × List String))
        | Except.error e => Except.error (( fix_frontmatter_syntax text).2
            ++ ["Could not parse frontmatter: " ++ e])) = Except.ok (m, b, pre) := h
    split at h2
    · rename_i m1 b1 heq2
      injection h2 with h3
      injection h3 with h4 h5
      injection h5 with h6 h7
      exact Or.inr (by rw [heq2, h4, h6])
    · rename_i e2 heq2
      simp at h2

theorem quoteBracketLine_none (l : List Char)
    (h : (quoteBracketLine l).2 = none) : (quoteBracketLine l).1 = l := by
  rw [quoteBracketLine] at h ⊢
  split at h
  · rfl
  · rename_i k rest heq
    have h3 : (if validKey k = true then
        if rest.dropWhile (· = ' ') ≠ [] ∧ '[' ∈ rest.dropWhile (· = ' ')
            ∧ (rest.dropWhile (· = ' ')).head? ≠ some '"'
            ∧ (rest.dropWhile (· = ' ')).head? ≠ some '\'' then
          ((k ++ ':' :: ' ' :: '"' :: (rest.dropWhile (· = ' ') ++ ['"']),
            some ("Quoted square brackets in '" ++ (⟨k⟩ : String) ++ "' field"))
            : List Char × Option String)
        else (l, none)
      else (l, none)).2 = none := h
    show (if validKey k = true then
        if rest.dropWhile (· = ' ') ≠ [] ∧ '[' ∈ rest.dropWhile (· = ' ')
            ∧ (rest.dropWhile (· = ' ')).head? ≠ some '"'
            ∧ (rest.dropWhile (· = ' ')).head? ≠ some '\'' then
          ((k ++ ':' :: ' ' :: '"' :: (rest.dropWhile (· = ' ') ++ ['"']),
            some ("Quoted square brackets in '" ++ (⟨k⟩ : String) ++ "' field"))
            : List Char × Option String)
        else (l, none)
      else (l, none)).1 = l
    split at h3
    · split at h3
      · simp at h3
      · rename_i hvk hcond
        rw [if_pos hvk, if_neg hcond]
    · rename_i hvk
      rw [if_neg hvk]

theorem nlMarkerSplit_eq : ∀ (cs a b2 : List Char), nlMarkerSplit cs = some (a, b2) →
    cs = a ++ '\n' :: '-' :: '-' :: '-' :: '\n' :: b2
  | [], a, b2, h => by simp [nlMarkerSplit] at h
  | c :: cs, a, b2, h => by
    rw [nlMarkerSplit] at h
    split at h
    · rename_i hcond
      simp only [Option.some.injEq, Prod.mk.injEq] at h
      obtain ⟨rfl, rfl⟩ := h
      obtain ⟨rfl, hlw⟩ := hcond
      obtain ⟨t, ht⟩ := (leadsWith_iff_append _ _).mp hlw
      have hd4 : cs.drop 4 = t := by
        rw [ht]
        rfl
      rw [List.nil_append, hd4, ht]
      rfl
    · cases hs : nlMarkerSplit cs with
      | none =>
        rw [hs] at h
        simp at h
      | some p =>
        obtain ⟨a1, b1⟩ := p
        rw [hs] at h
        simp only [Option.map_some', Option.some.injEq, Prod.mk.injEq] at h
        obtain ⟨rfl, rfl⟩ := h
        rw [List.cons_append, ← nlMarkerSplit_eq cs a1 b1 hs]

theorem repair_no_fixes_id (text : String)
    (h : ( fix_frontmatter_syntax text).2 = []) :
    ( fix_frontmatter_syntax text).1 = text := by
  rw [ fix_frontmatter_syntax] at h ⊢
  by_cases hlead : leadsWith "---\n".data text.data = true
  · rw [if_pos hlead] at h ⊢
    cases hn : nlMarkerSplit (text.data.drop 4) with
    | none => rfl
    | some p =>
      obtain ⟨fm, body⟩ := p
      rw [hn] at h
      have h2 : ((splitLinesC fm).map quoteBracketLine).filterMap Prod.snd = [] := h
      have hall : ∀ l ∈ splitLinesC fm, (quoteBracketLine l).2 = none := by
        intro l hl
        exact List.filterMap_eq_nil_iff.mp h2 (quoteBracketLine l)
          (List.mem_map.mpr ⟨l, hl, rfl⟩)
      have hmap : ((splitLinesC fm).map quoteBracketLine).map Prod.fst = splitLinesC fm := by
        rw [List.map_map]
        have hcg : ∀ l ∈ splitLinesC fm, (Prod.fst ∘ quoteBracketLine) l = id l := by
          intro l hl
          exact quoteBracketLine_none l (hall l hl)
        rw [List.map_congr_left hcg, List.map_id]
      show (⟨"---\n".data ++ joinLinesC (((splitLinesC fm).map quoteBracketLine).map Prod.fst)
          ++ '\n' :: '-' :: '-' :: '-' :: '\n' :: body⟩ : String) = text
      rw [hmap, joinLinesC_splitLinesC]
      have hdecomp : text.data = "---\n".data ++ (text.data.drop 4) := by
        obtain ⟨t, ht⟩ := (leadsWith_iff_append _ _).mp hlead
        rw [ht]
        rfl
      have hfm := nlMarkerSplit_eq (text.data.drop 4) fm body hn
      rw [show ("---\n".data ++ fm ++ '\n' :: '-' :: '-' :: '-' :: '\n' :: body)
          = "---\n".data ++ (fm ++ '\n' :: '-' :: '-' :: '-' :: '\n' :: body)
          from List.append_assoc .. ]
      rw [← hfm, ← hdecomp]
  · rw [if_neg hlead] at h ⊢

theorem parseStage_pre_nil (text : String) (m : Metadata) (b : String)
    (h : parseStage text = .ok (m, b, [])) : parseText text = .ok (m, b) := by
  rw [parseStage] at h
  split at h
  · rename_i m1 b1 heq
    injection h with h3
    injection h3 with h4 h5
    injection h5 with h6 _
    rw [heq, h4, h6]
  · rename_i e1 heq
    have h2 : (match parseText ( fix_frontmatter_syntax text).1 with
        | Except.ok (m, b) => (Except.ok (m, b, ( fix_frontmatter_syntax text).2)
            : Except (List String) (Metadata × String × List String))
        | Except.error e => Except.error (( fix_frontmatter_syntax text).2
            ++ ["Could not parse frontmatter: " ++ e])) = Except.ok (m, b, []) := h
    split at h2
    · rename_i m1 b1 heq2
      injection h2 with h3
      injection h3 with h4 h5
      injection h5 with h6 h7
      have hid := repair_no_fixes_id text h7
      rw [hid] at heq2
      rw [heq2] at heq
      simp at heq
    · rename_i e2 heq2
      simp at h2

theorem fixDescStep_fired (m : Metadata) (h : (fixDescStep m).2 ≠ []) :
    ∃ l, lookupMeta m "description" = some (.list l) := by
  rw [fixDescStep] at h
  cases hd : lookupMeta m "description" with
  | none =>
    rw [hd] at h
    exact absurd rfl h
  | some v =>
    cases v with
    | str s =>
      rw [hd] at h
      exact absurd rfl h
    | bool b2 =>
      rw [hd] at h
      exact absurd rfl h
    | list l => exact ⟨l, rfl⟩

theorem fixHintTypeStep_fired (m : Metadata) (h : (fixHintTypeStep m).2 ≠ []) :
    ∃ l, lookupMeta m "argument-hint" = some (.list l) := by
  rw [fixHintTypeStep] at h
  cases hd : lookupMeta m "argument-hint" with
  | none =>
    rw [hd] at h
    exact absurd rfl h
  | some v =>
    cases v with
    | str s =>
      rw [hd] at h
      exact absurd rfl h
    | bool b2 =>
      rw [hd] at h
      exact absurd rfl h
    | list l => exact ⟨l, rfl⟩

theorem addHintStep_fired (m : Metadata) (b : List Char)
    (h : (addHintStep m b).2 ≠ []) :
    lookupMeta m "argument-hint" = none
    ∧ (lookupMeta (addHintStep m b).1 "argument-hint").isSome = true := by
  by_cases hcond : ((seqIn "$ARGUMENTS".data b || !(posArgRuns b).isEmpty)
      && (lookupMeta m "argument-hint").isNone) = true
  · constructor
    · have h2 := (Bool.and_eq_true _ _) ▸ hcond
      cases ho : lookupMeta m "argument-hint" with
      | none => rfl
      | some v =>
        rw [ho] at h2
        simp at h2
    · simp only [addHintStep]
      rw [if_pos hcond]
      split
      · rw [lookupMeta_setKey_self]
        rfl
      · rw [lookupMeta_setKey_self]
        rfl
  · exfalso
    apply h
    rw [addHintStep_noop m b (by
      cases hcv : ((seqIn "$ARGUMENTS".data b || !(posArgRuns b).isEmpty)
          && (lookupMeta m "argument-hint").isNone) with
      | false => rfl
      | true => exact absurd hcv hcond)]

theorem fix_metadata_changes (m : Metadata) (b : String)
    (hf : (fix_metadata m b).2 ≠ []) : (fix_metadata m b).1 ≠ m := by
  have hsnd : (fix_metadata m b).2
      = ((fixDescStep m).2 ++ (fixHintTypeStep (fixDescStep m).1).2)
        ++ (addHintStep (fixHintTypeStep (fixDescStep m).1).1 b.data).2 := rfl
  intro heq
  by_cases h3 : (addHintStep (fixHintTypeStep (fixDescStep m).1).1 b.data).2 ≠ []
  · obtain ⟨hnone, hsome⟩ := addHintStep_fired _ _ h3
    have hsome2 : (lookupMeta (fix_metadata m b).1 "argument-hint").isSome = true := by
      rw [fix_metadata_fst]
      exact hsome
    rw [heq] at hsome2
    rcases fixHintTypeStep_cases (fixDescStep m).1 with hc2 | ⟨l2, hlk2, hc2⟩
    · rw [hc2, fixDescStep_lookup_ne _ _ (by decide)] at hnone
      rw [hnone] at hsome2
      simp at hsome2
    · rw [hc2, lookupMeta_setKey_self] at hnone
      simp at hnone
  · have h3e : (addHintStep (fixHintTypeStep (fixDescStep m).1).1 b.data).2 = [] :=
      not_not.mp h3
    by_cases h2 : (fixHintTypeStep (fixDescStep m).1).2 ≠ []
    · obtain ⟨l2, hlk2⟩ := fixHintTypeStep_fired _ h2
      have hmh : lookupMeta m "argument-hint" = some (.list l2) := by
        rw [← fixDescStep_lookup_ne m "argument-hint" (by decide)]
        exact hlk2
      have hnl := fix_metadata_hint_no_list m b l2
      rw [heq] at hnl
      exact hnl hmh
    · have h2e : (fixHintTypeStep (fixDescStep m).1).2 = [] := not_not.mp h2
      have h1 : (fixDescStep m).2 ≠ [] := by
        intro h1e
        apply hf
        rw [hsnd, h1e, h2e, h3e]
        rfl
      obtain ⟨l1, hlk1⟩ := fixDescStep_fired m h1
      have hnl := fix_metadata_desc_no_list m b l1
      rw [heq] at hnl
      exact hnl hlk1

theorem fixParsed_changes (m : Metadata) (b : String) (m2 : Metadata) (f : List String)
    (h : fixParsed m b = (some m2, f)) (hf : f ≠ []) : m2 ≠ m := by
  obtain ⟨bf, hc, hm2, hfd⟩ := fixParsed_some m b m2 f h
  by_cases hbf : bf.isEmpty = true
  · have hbfnil : bf = [] := by
      cases bf
      · rfl
      · simp at hbf
    have hmf : (fix_metadata m b).2 ≠ [] := by
      intro hmfe
      apply hf
      rw [hfd, hmfe, hbfnil]
      rfl
    rw [hm2, if_pos hbf]
    exact fix_metadata_changes m b hmf
  · have hm2e : m2 = add_bash_to_allowed_tools (fix_metadata m b).1 := by
      rw [hm2, if_neg hbf]
    by_cases hbash : (bashCmds b.data).isEmpty
    · rw [check_bash_permissions, if_pos hbash] at hc
      injection hc with h4
      rw [← h4] at hbf
      exact absurd rfl hbf
    · rw [check_bash_permissions, if_neg hbash] at hc
      intro heq
      cases hl : lookupMeta m "allowed-tools" with
      | none =>
        have hl1 : lookupMeta (fix_metadata m b).1 "allowed-tools" = none := by
          rw [fix_metadata_lookup_allowed_tools]
          exact hl
        have hthis : lookupMeta m2 "allowed-tools" = some (.str "Bash") := by
          rw [hm2e]
          exact add_bash_lookup_none _ hl1
        rw [heq, hl] at hthis
        simp at hthis
      | some v =>
        cases v with
        | bool b2 =>
          rw [hl] at hc
          have hc2 : (Except.error "argument of type 'bool' is not iterable"
              : Except String (List String)) = .ok bf := hc
          simp at hc2
        | str s =>
          have hl1 : lookupMeta (fix_metadata m b).1 "allowed-tools" = some (.str s) := by
            rw [fix_metadata_lookup_allowed_tools]
            exact hl
          have hthis : lookupMeta m2 "allowed-tools" = some (.str (s ++ ", Bash")) := by
            rw [hm2e]
            exact add_bash_lookup_str _ _ hl1
          rw [heq, hl] at hthis
          injection hthis with h5
          injection h5 with h6
          have h7 : s.data = s.data ++ (", Bash" : String).data := by
            rw [← String.data_append, ← h6]
          have h8 := congrArg List.length h7
          rw [List.length_append,
            show ((", Bash" : String).data).length = 6 from rfl] at h8
          omega
        | list l =>
          have hl1 : lookupMeta (fix_metadata m b).1 "allowed-tools" = some (.list l) := by
            rw [fix_metadata_lookup_allowed_tools]
            exact hl
          have hthis : lookupMeta m2 "allowed-tools" = some (.list (l ++ ["Bash"])) := by
            rw [hm2e]
            exact add_bash_lookup_list _ _ hl1
          rw [heq, hl] at hthis
          injection hthis with h5
          injection h5 with h6
          have h8 := congrArg List.length h6
          rw [List.length_append] at h8
          simp at h8

/-- C1 (counterexample to the unconditional claim): the fixer is not
idempotent for every document.  With a boolean `allowed-tools` and a
shell-execution marker in the body, the membership test raises, the pass
records an `Unexpected error` without rewriting the document, and a second
pass on the stored text emits the very same nonempty record list instead
of `[]`. -/
theorem fixer_not_idempotent_bool_tools :
    (fix_file "---\nallowed-tools: true\n---\nRun !`ls` now").1
      = "---\nallowed-tools: true\n---\nRun !`ls` now"
    ∧ (fix_file ((fix_file "---\nallowed-tools: true\n---\nRun !`ls` now").1)).2
      = ["Unexpected error: argument of type 'bool' is not iterable"] := by
  constructor
  · rfl
  · rfl

/-- C1 (amended): the fixer is idempotent on every document whose parse
stage succeeds and whose bash-permission check does not raise (the
`TypeError` escape hatch being the only exception): running `fix_file` on
the text stored by a first run returns that text unchanged together with
an empty fix-record list. -/
theorem fixer_idempotent_after_clean_pass (text : String) (m : Metadata) (b : String)
    (pre : List String) (bf : List String)
    (hstage : parseStage text = .ok (m, b, pre))
    (hcheck : check_bash_permissions m b = .ok bf) :
    fix_file ((fix_file text).1) = ((fix_file text).1, []) := by
  obtain ⟨m2, f, hfp⟩ : ∃ m2 f, fixParsed m b = (some m2, f) :=
    ⟨(if bf.isEmpty then (fix_metadata m b).1
        else add_bash_to_allowed_tools (fix_metadata m b).1),
     (fix_metadata m b).2 ++ bf, by rw [fixParsed, hcheck]⟩
  have hff : fix_file text
      = if (pre ++ f).isEmpty then (text, []) else (serializeDoc m2 b, pre ++ f) := by
    rw [fix_file, hstage]
    show (match fixParsed m b with
      | (none, fxs) => (text, pre ++ fxs)
      | (some m3, fxs) =>
        if (pre ++ fxs).isEmpty then (text, []) else (serializeDoc m3 b, pre ++ fxs))
      = if (pre ++ f).isEmpty then (text, []) else (serializeDoc m2 b, pre ++ f)
    rw [hfp]
  by_cases hemp : (pre ++ f).isEmpty = true
  · have h1 : fix_file text = (text, []) := by rw [hff, if_pos hemp]
    rw [h1]
    show fix_file text = (text, [])
    exact h1
  · have h1 : fix_file text = (serializeDoc m2 b, pre ++ f) := by rw [hff, if_neg hemp]
    rw [h1]
    show fix_file (serializeDoc m2 b) = (serializeDoc m2 b, [])
    have hwfm : serialWF m = true := by
      rcases parseStage_ok_parse text m b pre hstage with hp | hp
      · exact parseText_wf _ _ _ hp
      · exact parseText_wf _ _ _ hp
    have hwfm2 : serialWF m2 = true := serialWF_fixParsed m b m2 f hwfm hfp
    have hstage2 : parseStage (serializeDoc m2 b) = .ok (m2, b, []) := by
      rw [parseStage, parse_serialize m2 b hwfm2]
    have hfp2 : fixParsed m2 b = (some m2, []) := fixParsed_idem m b m2 f hfp
    rw [fix_file, hstage2]
    show (match fixParsed m2 b with
      | (none, fxs) => (serializeDoc m2 b, [] ++ fxs)
      | (some m3, fxs) =>
        if (([] : List String) ++ fxs).isEmpty then (serializeDoc m2 b, [])
        else (serializeDoc m3 b, [] ++ fxs)) = (serializeDoc m2 b, [])
    rw [hfp2]
    rfl

/-- Witness for C1 at a document that gains an argument-hint on the first
pass (so the first pass rewrites the stored text) and is then a fixed
point of the second pass. -/
theorem fixer_idempotent_after_clean_pass_witness :
    parseStage "---\ndescription: a test\n---\nrun $1"
      = .ok ([("description", .str "a test")], "run $1", [])
    ∧ check_bash_permissions [("description", .str "a test")] "run $1" = .ok []
    ∧ fix_file ((fix_file "---\ndescription: a test\n---\nrun $1").1)
      = ((fix_file "---\ndescription: a test\n---\nrun $1").1, []) :=
  ⟨by rfl, by rfl,
    fixer_idempotent_after_clean_pass "---\ndescription: a test\n---\nrun $1"
      [("description", .str "a test")] "run $1" [] [] (by rfl) (by rfl)⟩

/-- C8 (counterexample to the unconditional claim): a returned fix record
does not always correspond to a fix applied to the document.  With a
boolean `allowed-tools` and a shell marker in the body the pass returns a
nonempty record list (the `Unexpected error` record) while the stored
document is byte-identical to the input, so the record list is not empty
exactly when the document required no changes. -/
theorem fix_records_without_rewrite :
    (fix_file "---\nallowed-tools: false\n---\nCheck !`pwd` here").2
      = ["Unexpected error: argument of type 'bool' is not iterable"]
    ∧ (fix_file "---\nallowed-tools: false\n---\nCheck !`pwd` here").1
      = "---\nallowed-tools: false\n---\nCheck !`pwd` here" := by
  constructor
  · rfl
  · rfl

/-- C8 (amended): (i) for every document, an empty fix-record list means
the stored text is byte-identical to the input (a document with zero
applicable fixes is never rewritten); (ii) on every document whose parse
stage succeeds and whose bash-permission check does not raise, the
converse also holds: the record list is empty exactly when the stored
text is byte-identical to the input. -/
theorem empty_records_iff_no_rewrite :
    (∀ text, (fix_file text).2 = [] → (fix_file text).1 = text)
    ∧ ∀ text m b pre bf, parseStage text = .ok (m, b, pre) →
        check_bash_permissions m b = .ok bf →
        ((fix_file text).2 = [] ↔ (fix_file text).1 = text) := by
  constructor
  · intro text
    cases hs : parseStage text with
    | error fixes =>
      rw [fix_file, hs]
      intro _
      rfl
    | ok p =>
      obtain ⟨m, bp⟩ := p
      obtain ⟨b, pre⟩ := bp
      have hred : fix_file text = (match fixParsed m b with
          | (none, fxs) => (text, pre ++ fxs)
          | (some m3, fxs) =>
            if (pre ++ fxs).isEmpty then (text, [])
            else (serializeDoc m3 b, pre ++ fxs)) := by
        rw [fix_file, hs]
      rw [hred]
      cases hfp : fixParsed m b with
      | mk om fxs =>
        cases om with
        | none =>
          intro _
          rfl
        | some m2 =>
          show ((if (pre ++ fxs).isEmpty then (text, [])
              else (serializeDoc m2 b, pre ++ fxs)).2 = []
            → (if (pre ++ fxs).isEmpty then (text, [])
              else (serializeDoc m2 b, pre ++ fxs)).1 = text)
          by_cases hemp : (pre ++ fxs).isEmpty = true
          · rw [if_pos hemp]
            intro _
            rfl
          · rw [if_neg hemp]
            intro h2
            exfalso
            apply hemp
            rw [show pre ++ fxs = [] from h2]
            rfl
  · intro text m b pre bf hstage hcheck
    obtain ⟨m2, f, hfp⟩ : ∃ m2 f, fixParsed m b = (some m2, f) :=
      ⟨(if bf.isEmpty then (fix_metadata m b).1
          else add_bash_to_allowed_tools (fix_metadata m b).1),
       (fix_metadata m b).2 ++ bf, by rw [fixParsed, hcheck]⟩
    have hff : fix_file text
        = if (pre ++ f).isEmpty then (text, []) else (serializeDoc m2 b, pre ++ f) := by
      rw [fix_file, hstage]
      show (match fixParsed m b with
        | (none, fxs) => (text, pre ++ fxs)
        | (some m3, fxs) =>
          if (pre ++ fxs).isEmpty then (text, []) else (serializeDoc m3 b, pre ++ fxs))
        = if (pre ++ f).isEmpty then (text, []) else (serializeDoc m2 b, pre ++ f)
      rw [hfp]
    by_cases hemp : (pre ++ f).isEmpty = true
    · rw [hff, if_pos hemp]
      simp
    · rw [hff, if_neg hemp]
      constructor
      · intro h2
        have hit : (pre ++ f).isEmpty = true := by
          rw [show pre ++ f = [] from h2]
          rfl
        exact (hemp hit).elim
      · intro h2
        exfalso
        by_cases hpre : pre = []
        · subst hpre
          have hpt : parseText text = .ok (m, b) := parseStage_pre_nil text m b hstage
          have hfne : f ≠ [] := by
            intro hfe
            apply hemp
            rw [hfe]
            rfl
          have hm2ne : m2 ≠ m := fixParsed_changes m b m2 f hfp hfne
          have hwfm : serialWF m = true := parseText_wf _ _ _ hpt
          have hwfm2 : serialWF m2 = true := serialWF_fixParsed m b m2 f hwfm hfp
          have hps : parseText (serializeDoc m2 b) = .ok (m2, b) :=
            parse_serialize m2 b hwfm2
          have h2e : serializeDoc m2 b = text := h2
          rw [h2e, hpt] at hps
          injection hps with h5
          injection h5 with h6 _
          exact hm2ne h6.symm
        · have hpt : ∃ e, parseText text = .error e := by
            rw [parseStage] at hstage
            split at hstage
            · rename_i m1 b1 heq
              injection hstage with h3
              injection h3 with h4 h5
              injection h5 with h6 h7
              exact absurd h7.symm hpre
            · rename_i e1 heq
              exact ⟨e1, heq⟩
          obtain ⟨e, hpt⟩ := hpt
          have hwfm : serialWF m = true := by
            rcases parseStage_ok_parse text m b pre hstage with hp | hp
            · rw [hpt] at hp
              simp at hp
            · exact parseText_wf _ _ _ hp
          have hwfm2 : serialWF m2 = true := serialWF_fixParsed m b m2 f hwfm hfp
          have hps : parseText (serializeDoc m2 b) = .ok (m2, b) :=
            parse_serialize m2 b hwfm2
          have h2e : serializeDoc m2 b = text := h2
          rw [h2e, hpt] at hps
          simp at hps

/-- Witness for C8 at a well-formed document with no applicable fix: the
equivalence instantiates to a true biconditional. -/
theorem empty_records_iff_no_rewrite_witness :
    ((fix_file "---\ndescription: ok\n---\nbody text").2 = []
      ↔ (fix_file "---\ndescription: ok\n---\nbody text").1
          = "---\ndescription: ok\n---\nbody text") :=
  empty_records_iff_no_rewrite.2 "---\ndescription: ok\n---\nbody text"
    [("description", .str "ok")] "body text" [] [] (by rfl) (by rfl)
